import Mathlib

/-!
# Android Kover step: artifact discovery and export pipeline

A shallow embedding of `main.go` (package `main` of the Bitrise step
`bitrise-step-android-kover`) together with theorems about

* `filterVariants`      (module / variant selection),
* `getArtifacts`        (two-pass discovery with a modification-time floor),
* `exportArtifacts`     (zip export into the deploy directory),
* `tryExportTestAddonArtifact` (bucket naming for the test addon),
* `main`                (ordering of build, exports and cache collection).

Conventions of the embedding

* Go `map[string][]string` (`gradle.Variants`) is an association list with
  first-match lookup; a Go map corresponds to a list with pairwise distinct
  keys (`Variants.WF`).  Go iterates a map in an unspecified order; the list
  order is one such order, and `filterVariants_perm` shows that the outcome
  of `filterVariants` does not depend on it.
* Functions returning `(T, error)` return `Except String T`.
* Calls that change or observe the outside world are recorded in explicit
  traces.  Output written through the logger is not part of the model,
  apart from the two warnings of `getArtifacts`.
* `strings.ToLower` maps every rune through `unicode.ToLower`; the rune
  mapping is a parameter `lowerRune`.
* An entry of the deploy directory is identified by its name.
* Go `int` is 64 bits wide; the increment of `lastOtherDirIdx` wraps around
  (`wrapInt64`), and a slice holds fewer than `2 ^ 63` elements.
-/

set_option autoImplicit false

namespace Kover

/-! ## Data model -/

/-- Go `gradle.Variants`, a `map[string][]string` from module to variants. -/
abbrev Variants := List (String × List String)

namespace Variants

/-- Go `v, ok := m[k]`: `some v` when the key is present. -/
def get : Variants → String → Option (List String)
  | [], _ => none
  | (k', v) :: rest, k => if k' = k then some v else get rest k

/-- Go `m[k]` as an expression: the zero value (nil slice) for a missing key. -/
def getD (m : Variants) (k : String) : List String :=
  (get m k).getD []

/-- Go `m[k] = v`: overwrite the entry for `k`, or add one. -/
def set : Variants → String → List String → Variants
  | [], k, v => [(k, v)]
  | (k', v') :: rest, k, v =>
    if k' = k then (k, v) :: rest else (k', v') :: set rest k v

/-- The module keys of the map. -/
def keys (m : Variants) : List String := m.map Prod.fst

/-- Keys are pairwise distinct, as in every Go map. -/
def WF (m : Variants) : Prop := (keys m).Nodup

instance (m : Variants) : Decidable (WF m) := by
  unfold WF; infer_instance

/-- All `(module, variant)` pairs held by the map. -/
def pairs (m : Variants) : List (String × String) :=
  m.flatMap (fun e => e.2.map (fun v => (e.1, v)))

end Variants

/-! ## `filterVariants` -/

section Filter

variable (lowerRune : Char → Char)

/-- Go `strings.ToLower`: every rune mapped through `unicode.ToLower`. -/
def ToLower (s : String) : String := ⟨s.data.map lowerRune⟩

/-- The body of the inner loop of `filterVariants` (lines 122-126):
append `v` to `filteredVariants[m]` when it matches the selector. -/
def filterStep (variant m : String) (filteredVariants : Variants) (v : String) : Variants :=
  if ToLower lowerRune v = ToLower lowerRune variant then
    filteredVariants.set m (filteredVariants.getD m ++ [v])
  else filteredVariants

/-- The nested loops of `filterVariants` (lines 121-127), run from the map
`acc` built so far. -/
def filterLoop (variant : String) (variantsMap : Variants) (acc : Variants) : Variants :=
  variantsMap.foldl
    (fun acc e => e.2.foldl (filterStep lowerRune variant e.1) acc) acc

/-- Lines 109-115 of `filterVariants`: with a module selector, drop all
other modules; fail when the module is not a key of the map. -/
def restrictModule (module : String) (variantsMap : Variants) : Except String Variants :=
  if module ≠ "" then
    match variantsMap.get module with
    | none => .error ("module not found: " ++ module)
    | some v => .ok [(module, v)]
  else .ok variantsMap

/-- Go `filterVariants(module, variant, variantsMap)`. -/
def filterVariants (module variant : String) (variantsMap : Variants) :
    Except String Variants :=
  match restrictModule module variantsMap with
  | .error e => .error e
  | .ok variantsMap =>
    if variant = "" then .ok variantsMap
    else
      let filteredVariants := filterLoop lowerRune variant variantsMap []
      if filteredVariants.length = 0 then
        .error ("variant " ++ variant ++ " not found in any module")
      else .ok filteredVariants

/-! ### Descriptions used in the statements about `filterVariants` -/

/-- The variants of a list whose lowercased form equals the lowercased
selector, in their original order and casing. -/
def matching (variant : String) (vs : List String) : List String :=
  vs.filter (fun v => decide (ToLower lowerRune v = ToLower lowerRune variant))

/-- Every value of the map is a non-empty list of matching variants. -/
def AllMatching (variant : String) (m : Variants) : Prop :=
  ∀ e ∈ m, e.2 ≠ [] ∧ matching lowerRune variant e.2 = e.2

/-- One pass of the outer loop, in closed form. -/
def outerStep (variant : String) (acc : Variants) (e : String × List String) : Variants :=
  if matching lowerRune variant e.2 = [] then acc
  else acc.set e.1 (acc.getD e.1 ++ matching lowerRune variant e.2)

/-- Matching variants of all entries with key `k`, concatenated. -/
def collect (variant : String) (es : Variants) (k : String) : List String :=
  match es with
  | [] => []
  | e :: rest =>
    if e.1 = k then matching lowerRune variant e.2 ++ collect variant rest k
    else collect variant rest k

end Filter

/-- The module-restricted map of the specification: the whole map when no
module is selected, otherwise the single entry of the selected module (no
entry at all when the module is not a key). -/
def restrictedMap (module : String) (all : Variants) : Variants :=
  if module = "" then all
  else match all.get module with
    | some x => [(module, x)]
    | none => []

/-! ## `getArtifacts` -/

/-- Go `time.Time`, as a number of ticks; `zeroTime` is `time.Time{}`. -/
abbrev Time := Nat

/-- Go `time.Time{}`, the zero time, which disables the modtime floor. -/
def zeroTime : Time := 0

/-- Go `gradle.Artifact`: the path of the artifact and its export name. -/
structure Artifact where
  Path : String
  Name : String
  deriving DecidableEq, Repr

/-- Go `gradle.Project` as far as `main.go` uses it: the two finders, each
taking the modtime floor, the pattern and the module-name flag. -/
structure Project where
  FindDirs : Time → String → Bool → Except String (List Artifact)
  FindArtifacts : Time → String → Bool → Except String (List Artifact)

/-- What `getArtifacts` does to the outside world. -/
inductive HarvestEvent where
  /-- A call of `FindDirs` or `FindArtifacts` with this modtime floor. -/
  | find (floor : Time)
  /-- Lines 59-61: nothing newer than the floor, "Retrying without modtime check....". -/
  | warnRetry (floor : Time)
  /-- Lines 64-65: nothing found without modtime check. -/
  | warnNotFound
  deriving DecidableEq, Repr

/-- The `for _, t := range []time.Time{started, {}}` loop of `getArtifacts`
(lines 48-67) over the remaining floors `ts`; `artifacts` is the value of
the named result before the iteration, `log` the events so far. -/
def getArtifactsLoop (gradleProject : Project) (started : Time) (pattern : String)
    (includeModuleName isDirectoryMode : Bool) :
    List Time → List HarvestEvent → List Artifact →
      List HarvestEvent × Except String (List Artifact)
  | [], log, artifacts => (log, .ok artifacts)
  | t :: ts, log, _ =>
    let found :=
      if isDirectoryMode then gradleProject.FindDirs t pattern includeModuleName
      else gradleProject.FindArtifacts t pattern includeModuleName
    match found with
    | .error err => (log ++ [.find t], .error err)
    | .ok artifacts =>
      if artifacts.length = 0 then
        if t = started then
          getArtifactsLoop gradleProject started pattern includeModuleName
            isDirectoryMode ts (log ++ [.find t, .warnRetry t]) artifacts
        else
          getArtifactsLoop gradleProject started pattern includeModuleName
            isDirectoryMode ts (log ++ [.find t, .warnNotFound]) artifacts
      else
        getArtifactsLoop gradleProject started pattern includeModuleName
          isDirectoryMode ts (log ++ [.find t]) artifacts

/-- Go `getArtifacts`: the finder calls and warnings it makes, and its
result. -/
def getArtifacts (gradleProject : Project) (started : Time) (pattern : String)
    (includeModuleName isDirectoryMode : Bool) :
    List HarvestEvent × Except String (List Artifact) :=
  getArtifactsLoop gradleProject started pattern includeModuleName isDirectoryMode
    [started, zeroTime] [] []

/-! ## `exportArtifacts` -/

/-- Go `strings.HasSuffix`. -/
def HasSuffix (s suffix : String) : Bool := suffix.data.isSuffixOf s.data

/-- Go `strings.TrimSuffix`: `s` without the trailing `suffix`, or `s`
itself when it does not end in `suffix`. -/
def TrimSuffix (s suffix : String) : String :=
  if HasSuffix s suffix then ⟨s.data.take (s.data.length - suffix.data.length)⟩
  else s

/-- The decimal digit `'0' + d`. -/
def digitOf (d : Nat) : Char := Char.ofNat (48 + d)

/-- Go `strconv.FormatUint(n, 10)`: the decimal rendering of `n`. -/
def FormatUint (n : Nat) : String :=
  if n = 0 then "0" else ⟨((Nat.digits 10 n).map digitOf).reverse⟩

/-- The last `width` decimal digits of `x`, most significant first. -/
def padDigits : Nat → Nat → List Char
  | 0, _ => []
  | width + 1, x => padDigits width (x / 10) ++ [digitOf (x % 10)]

/-- Go `appendInt` of package `time` for a non-negative `x`: the decimal
rendering of `x`, padded with zeros on the left up to `width` digits. -/
def appendInt (x width : Nat) : String :=
  if x < 10 ^ width then ⟨padDigits width x⟩ else FormatUint x

/-- A reading of `time.Now()`, broken down into its civil fields. -/
structure WallClock where
  year : Nat
  month : Nat
  day : Nat
  hour : Nat
  minute : Nat
  second : Nat
  deriving DecidableEq, Repr

/-- The ranges of the fields of a civil time, as every `time.Time` has
them; the year is not bounded. -/
def WallClock.Civil (c : WallClock) : Prop :=
  1 ≤ c.month ∧ c.month ≤ 12 ∧ 1 ≤ c.day ∧ c.day ≤ 31 ∧
    c.hour < 24 ∧ c.minute < 60 ∧ c.second < 60

instance (c : WallClock) : Decidable c.Civil := by
  unfold WallClock.Civil; infer_instance

/-- Go `t.Format("20060102150405")`: year, month, day, hour, minute and
second, zero padded to 4, 2, 2, 2, 2 and 2 digits. -/
def formatTimestamp (c : WallClock) : String :=
  appendInt c.year 4 ++ appendInt c.month 2 ++ appendInt c.day 2 ++
    appendInt c.hour 2 ++ appendInt c.minute 2 ++ appendInt c.second 2

/-- The outside world of `exportArtifacts`.  An entry of the deploy
directory is identified by its name (the export name joined to
`deployDir`). -/
structure DeployEnv where
  /-- The error of `pathutil.IsPathExists` on `deployDir/name`, if any. -/
  statErr : String → Option String
  /-- The reading of `time.Now()` while artifact number `i` of the batch is
  processed. -/
  now : Nat → WallClock
  /-- Whether `ExportZIP` fails for the artifact (under its final name). -/
  zipFails : Artifact → Bool

/-- One call of `artifact.ExportZIP(deployDir)` (line 99). -/
structure WriteEvent where
  /-- Position of the artifact in the batch. -/
  index : Nat
  /-- The artifact as discovered, with its display name. -/
  artifact : Artifact
  /-- The name under `deployDir` the zip is written to. -/
  target : String
  /-- The names present in `deployDir` at the moment of the write. -/
  before : List String
  /-- Whether `ExportZIP` succeeded. -/
  ok : Bool
  deriving DecidableEq, Repr

/-- Lines 81-90 of `exportArtifacts`: the name the artifact is exported
under, given whether `deployDir/<Name>.zip` exists and the clock reading. -/
def exportName (exist : Bool) (now : WallClock) (artifactName : String) : String :=
  let name := artifactName ++ ".zip"
  if exist then
    TrimSuffix name ".zip" ++ "-" ++ formatTimestamp now ++ ".zip"
  else name

/-- The loop of `exportArtifacts` (lines 80-103) from artifact number `i`
on; `present` holds the names in `deployDir`, `log` the writes so far. -/
def exportArtifactsLoop (env : DeployEnv) :
    Nat → List Artifact → List String → List WriteEvent →
      (List WriteEvent × List String) × Except String Unit
  | _, [], present, log => ((log, present), .ok ())
  | i, artifact :: rest, present, log =>
    match env.statErr (artifact.Name ++ ".zip") with
    | some err => ((log, present), .error ("failed to check path, error: " ++ err))
    | none =>
      let exist := decide (artifact.Name ++ ".zip" ∈ present)
      let name := exportName exist (env.now i) artifact.Name
      let ok := !env.zipFails { artifact with Name := name }
      exportArtifactsLoop env (i + 1) rest
        (if ok then name :: present else present)
        (log ++ [⟨i, artifact, name, present, ok⟩])

/-- Go `exportArtifacts(deployDir, artifacts)`, started with the names
`present` in `deployDir`: the writes made, the names present afterwards,
and the returned error. -/
def exportArtifacts (env : DeployEnv) (present : List String)
    (artifacts : List Artifact) :
    (List WriteEvent × List String) × Except String Unit :=
  exportArtifactsLoop env 0 artifacts present []

/-- The character of the decimal digit of `n` at `place` (0 for the units). -/
def decimalDigit (n place : Nat) : Char := Char.ofNat (48 + n / 10 ^ place % 10)

/-- The number written by a list of decimal digit characters. -/
def decimalValue (cs : List Char) : Nat :=
  cs.foldl (fun acc c => 10 * acc + (c.toNat - 48)) 0

/-- Month, day, hour, minute and second of a clock reading, two decimal
digits each. -/
def clockTail (c : WallClock) : List Char :=
  [decimalDigit c.month 1, decimalDigit c.month 0,
   decimalDigit c.day 1, decimalDigit c.day 0,
   decimalDigit c.hour 1, decimalDigit c.hour 0,
   decimalDigit c.minute 1, decimalDigit c.minute 0,
   decimalDigit c.second 1, decimalDigit c.second 0]

/-- The writes `evs` are those of a run of the loop of `exportArtifacts`
that starts at artifact number `i` with the names `present` in `deployDir`:
each write sees the names left by the writes before it. -/
def Threaded (env : DeployEnv) : Nat → List String → List WriteEvent → Prop
  | _, _, [] => True
  | i, present, ev :: rest =>
    ev.index = i ∧ ev.before = present ∧
      ev.ok = (!env.zipFails { ev.artifact with Name := ev.target }) ∧
      Threaded env (i + 1) (if ev.ok then ev.target :: present else present) rest

/-- What every write of `exportArtifacts` satisfies: the target is the
export name computed from the names present at that moment and the clock
reading of that artifact; nothing present at the start has disappeared. -/
def WriteOk (env : DeployEnv) (present : List String) (ev : WriteEvent) : Prop :=
  ev.target = exportName (decide (ev.artifact.Name ++ ".zip" ∈ ev.before))
      (env.now ev.index) ev.artifact.Name ∧
    ∀ n ∈ present, n ∈ ev.before

/-! ## `tryExportTestAddonArtifact` -/

/-- Modelled from the spec: the constant `OtherDirName` of package `main`,
declared outside `main.go`; the spec gives it as the literal `"other"`. -/
def OtherDirName : String := "other"

/-- Go `int` arithmetic: the value of a 64-bit two's complement result. -/
def wrapInt64 (x : Int) : Int := (x + 2 ^ 63) % 2 ^ 64 - 2 ^ 63

/-- Go `strconv.Itoa`. -/
def Itoa (i : Int) : String :=
  if i < 0 then "-" ++ FormatUint i.natAbs else FormatUint i.toNat

/-- One call of `testaddon.ExportArtifact(artifactPth, outputDir, dir)`
(line 146). -/
structure AddonEvent where
  artifactPth : String
  outputDir : String
  /-- The bucket directory the artifact is copied into. -/
  dir : String
  /-- Whether the copy succeeded. -/
  ok : Bool
  deriving DecidableEq, Repr

/-- Go `tryExportTestAddonArtifact`.  `getExportDir` is the categorisation
function of package `main` and `exportArtifact` tells whether
`testaddon.ExportArtifact` succeeds; the result is the export attempted and
the new `lastOtherDirIdx`. -/
def tryExportTestAddonArtifact (getExportDir : String → String)
    (exportArtifact : String → String → String → Bool)
    (artifactPth outputDir : String) (lastOtherDirIdx : Int) : AddonEvent × Int :=
  let dir := getExportDir artifactPth
  let indexed : String × Int :=
    if dir = OtherDirName then
      let lastOtherDirIdx := wrapInt64 (lastOtherDirIdx + 1)
      if lastOtherDirIdx > 0 then (dir ++ "-" ++ Itoa lastOtherDirIdx, lastOtherDirIdx)
      else (dir, lastOtherDirIdx)
    else (dir, lastOtherDirIdx)
  (⟨artifactPth, outputDir, indexed.1,
      exportArtifact artifactPth outputDir indexed.1⟩, indexed.2)

/-- Lines 264-266 of `main`: the artifacts of a batch exported in order,
`lastOtherDirIdx` threaded through the calls. -/
def exportTestAddonBatch (getExportDir : String → String)
    (exportArtifact : String → String → String → Bool) (outputDir : String) :
    List String → Int → List AddonEvent × Int
  | [], lastOtherDirIdx => ([], lastOtherDirIdx)
  | artifactPth :: rest, lastOtherDirIdx =>
    let r := tryExportTestAddonArtifact getExportDir exportArtifact artifactPth
      outputDir lastOtherDirIdx
    let rs := exportTestAddonBatch getExportDir exportArtifact outputDir rest r.2
    (r.1 :: rs.1, rs.2)

/-- The bucket of an artifact whose category is `dir`, when `k` artifacts
of category `OtherDirName` came before it in the batch. -/
def bucketName (dir : String) (k : Nat) : String :=
  if dir = OtherDirName then (if k = 0 then dir else dir ++ "-" ++ FormatUint k)
  else dir

/-- The number of artifacts of category `OtherDirName` among the first `i`
paths of a batch. -/
def othersBefore (getExportDir : String → String) (paths : List String) (i : Nat) : Nat :=
  (paths.take i).countP (fun p => decide (getExportDir p = OtherDirName))

/-! ## `main` -/

/-- Go `Configs`. -/
structure Configs where
  ProjectLocation : String
  HTMLResultDirPattern : String
  XMLResultDirPattern : String
  Variant : String
  Module : String
  Arguments : String
  CacheLevel : String
  IsDebug : Bool
  DeployDir : String
  TestResultDir : String

/-- The outside world of one run of `main`: the answers of the calls that
leave the program. -/
structure World where
  /-- The rune mapping `unicode.ToLower`. -/
  lowerRune : Char → Char
  /-- The result of `stepconf.Parse`. -/
  parseConfig : Except String Configs
  /-- The result of `gradle.NewProject` on the project location; the finders
  of the project answer for the files present after the build. -/
  newProject : String → Except String Project
  /-- The result of `shellquote.Split` on the arguments. -/
  splitArgs : String → Except String (List String)
  /-- The result of `koverTask.GetVariants(args...)`. -/
  getVariants : List String → Except String Variants
  /-- The value of `time.Now()` at line 207. -/
  now : Time
  /-- The error returned by running the command built for the variants and
  arguments, `none` for a successful build. -/
  runBuild : Variants → List String → Option String
  /-- The names present in the deploy directory after the build. -/
  deployPresent : List String
  /-- Stat errors, clock readings and zip failures of the HTML export. -/
  htmlEnv : DeployEnv
  /-- Stat errors, clock readings and zip failures of the XML export. -/
  xmlEnv : DeployEnv
  /-- The categorisation function `getExportDir` of package `main`. -/
  getExportDir : String → String
  /-- Whether `testaddon.ExportArtifact` succeeds. -/
  exportArtifact : String → String → String → Bool

/-- The three export phases of `main`. -/
inductive Phase where
  | html
  | xml
  | testAddon
  deriving DecidableEq, Repr

/-- What `main` does to the outside world after the variants are filtered. -/
inductive Event where
  /-- Line 218: the build command is run for these variants and arguments. -/
  | build (variants : Variants) (args : List String)
  /-- A finder call or warning of `getArtifacts` in a phase. -/
  | find (phase : Phase) (e : HarvestEvent)
  /-- A call of `ExportZIP` made by `exportArtifacts` in a phase. -/
  | zip (phase : Phase) (w : WriteEvent)
  /-- A call of `testaddon.ExportArtifact`. -/
  | addon (e : AddonEvent)
  /-- Line 276: `cache.Collect` on the project location with the cache level. -/
  | cache (projectLocation cacheLevel : String)
  deriving DecidableEq, Repr

/-- Lines 254-257 of `main`: the XML directory pattern, ending in `*.xml`. -/
def xmlResultFilePattern (pattern : String) : String :=
  if !HasSuffix pattern "*.xml" then pattern ++ "*.xml" else pattern

/-- Lines 248-268 of `main`: the test-addon phase, entered when
`TestResultDir` is set. -/
def testAddonPhase (w : World) (config : Configs) (gradleProject : Project)
    (started : Time) : List Event :=
  let resultXMLs := getArtifacts gradleProject started
    (xmlResultFilePattern config.XMLResultDirPattern) false false
  match resultXMLs.2 with
  | .error _ => resultXMLs.1.map (Event.find .testAddon)
  | .ok resultXMLs' =>
    resultXMLs.1.map (Event.find .testAddon) ++
      (exportTestAddonBatch w.getExportDir w.exportArtifact config.TestResultDir
        (resultXMLs'.map Artifact.Path) (-1)).1.map Event.addon

/-- Lines 207-280 of `main`, after configuration, project and variants are
in place: the events of the run and the exit status of the process. -/
def runPipeline (w : World) (config : Configs) (gradleProject : Project)
    (filteredVariants : Variants) (args : List String) : List Event × Nat :=
  let started := w.now
  let koverErr := w.runBuild filteredVariants args
  let t0 := [Event.build filteredVariants args]
  let reports := getArtifacts gradleProject started config.HTMLResultDirPattern true true
  let t1 := t0 ++ reports.1.map (Event.find .html)
  match reports.2 with
  | .error _ => (t1, 1)
  | .ok reports =>
    let exportedHtml := exportArtifacts w.htmlEnv w.deployPresent reports
    let t2 := t1 ++ exportedHtml.1.1.map (Event.zip .html)
    match exportedHtml.2 with
    | .error _ => (t2, 1)
    | .ok _ =>
      let results :=
        getArtifacts gradleProject started config.XMLResultDirPattern true true
      let t3 := t2 ++ results.1.map (Event.find .xml)
      match results.2 with
      | .error _ => (t3, 1)
      | .ok results =>
        let exportedXml := exportArtifacts w.xmlEnv exportedHtml.1.2 results
        let t4 := t3 ++ exportedXml.1.1.map (Event.zip .xml)
        match exportedXml.2 with
        | .error _ => (t4, 1)
        | .ok _ =>
          let t5 :=
            if config.TestResultDir ≠ "" then
              t4 ++ testAddonPhase w config gradleProject started
            else t4
          match koverErr with
          | some _ => (t5, 1)
          | none => (t5 ++ [Event.cache config.ProjectLocation config.CacheLevel], 0)

/-- Go `main`: the events of the run and the exit status of the process.
Every `failf` ends the run with status 1. -/
def main (w : World) : List Event × Nat :=
  match w.parseConfig with
  | .error _ => ([], 1)
  | .ok config =>
    match w.newProject config.ProjectLocation with
    | .error _ => ([], 1)
    | .ok gradleProject =>
      match w.splitArgs config.Arguments with
      | .error _ => ([], 1)
      | .ok args =>
        match w.getVariants args with
        | .error _ => ([], 1)
        | .ok variants =>
          match filterVariants w.lowerRune config.Module config.Variant variants with
          | .error _ => ([], 1)
          | .ok filteredVariants =>
            runPipeline w config gradleProject filteredVariants args

/-! ## Concrete inputs used to evaluate the definitions -/

/-- A project with one report written by the current build and one left by
an earlier build: the first is newer than any floor up to 5, the second is
only found without a floor. -/
def staleProject : Project where
  FindDirs := fun floor _ _ =>
    if floor = 0 then
      .ok [⟨"/p/app/build/reports/kover/html", "app-html"⟩,
           ⟨"/p/old/build/reports/kover/html", "old-html"⟩]
    else if floor ≤ 5 then .ok [⟨"/p/app/build/reports/kover/html", "app-html"⟩]
    else .ok []
  FindArtifacts := fun _ _ _ => .ok []

/-- A deploy environment without stat errors or zip failures, whose clock
reads 2024-01-15 12:00:00 throughout. -/
def quietEnv : DeployEnv where
  statErr := fun _ => none
  now := fun _ => ⟨2024, 1, 15, 12, 0, 0⟩
  zipFails := fun _ => false

/-- A deploy environment without stat errors or zip failures, whose clock
reads 10000-01-01 00:00:00 throughout. -/
def lateEnv : DeployEnv where
  statErr := fun _ => none
  now := fun _ => ⟨10000, 1, 1, 0, 0, 0⟩
  zipFails := fun _ => false

/-- The HTML report of module `app`, with display name `app-debug`. -/
def appDebug : Artifact := ⟨"/p/app/build/reports/kover/html", "app-debug"⟩

/-- The write made for `appDebug` when `app-debug.zip` is already present. -/
def appDebugWrite (before : List String) : WriteEvent :=
  ⟨0, appDebug, "app-debug-20240115120000.zip", before, true⟩

/-- The categorisation of the spec's scenario 6: paths under `unit/` and
`ui/` go to the buckets `unit` and `ui`, every other path to `other`. -/
def scenarioExportDir (pth : String) : String :=
  if pth = "unit/a.xml" then "unit"
  else if pth = "ui/d.xml" then "ui"
  else "other"

/-- The four XML files of the spec's scenario 6. -/
def scenarioPaths : List String := ["unit/a.xml", "x/b.xml", "y/c.xml", "ui/d.xml"]

/-- ASCII lowering, used to evaluate the definitions on concrete inputs. -/
def asciiLower (c : Char) : Char := c.toLower

/-- A run in which everything succeeds except the build: the project of
`staleProject`, the variants of the spec's happy path, an empty deploy
directory and a test-result directory. -/
def failedBuildWorld : World where
  lowerRune := asciiLower
  parseConfig := .ok
    { ProjectLocation := "/p"
      HTMLResultDirPattern := "*build/reports/kover/html"
      XMLResultDirPattern := "*build/reports/kover/xml"
      Variant := "Debug"
      Module := ""
      Arguments := ""
      CacheLevel := "only_deps"
      IsDebug := false
      DeployDir := "/deploy"
      TestResultDir := "/results" }
  newProject := fun _ => .ok staleProject
  splitArgs := fun _ => .ok []
  getVariants := fun _ => .ok [("app", ["debug", "release"])]
  now := 5
  runBuild := fun _ _ => some "exit status 1"
  deployPresent := []
  htmlEnv := quietEnv
  xmlEnv := quietEnv
  getExportDir := scenarioExportDir
  exportArtifact := fun _ _ _ => true



/-! ## Lemmas on the map operations -/

namespace Variants

theorem get_set (m : Variants) (k k' : String) (v : List String) :
    get (set m k v) k' = if k = k' then some v else get m k' := by
  induction m with
  | nil => simp [set, get]
  | cons e rest ih =>
    obtain ⟨a, b⟩ := e
    by_cases h : a = k
    · subst h
      by_cases h' : a = k' <;> simp [set, get, h']
    · by_cases h' : k = k'
      · subst h'
        simp [set, get, h, ih]
      · by_cases h'' : a = k'
        · subst h''
          simp [set, get, h, h']
        · simp [set, get, h, h', h'', ih]

theorem getD_set_self (m : Variants) (k : String) (v : List String) :
    getD (set m k v) k = v := by
  simp [getD, get_set]

theorem set_set (m : Variants) (k : String) (v w : List String) :
    set (set m k v) k w = set m k w := by
  induction m with
  | nil => simp [set]
  | cons e rest ih =>
    obtain ⟨a, b⟩ := e
    by_cases h : a = k <;> simp [set, h, ih]

theorem get_eq_none_iff (m : Variants) (k : String) :
    get m k = none ↔ k ∉ keys m := by
  induction m with
  | nil => simp [get, keys]
  | cons e rest ih =>
    obtain ⟨a, b⟩ := e
    by_cases h : a = k
    · simp [get, keys, h]
    · have h' : ¬ k = a := fun hh => h hh.symm
      simpa [get, keys, h, h'] using ih

theorem set_of_not_mem (m : Variants) (k : String) (v : List String)
    (h : k ∉ keys m) : set m k v = m ++ [(k, v)] := by
  induction m with
  | nil => simp [set]
  | cons e rest ih =>
    obtain ⟨a, b⟩ := e
    simp only [keys, List.map_cons, List.mem_cons, not_or] at h
    have h1 : ¬ a = k := fun hh => h.1 hh.symm
    simp [set, h1, ih h.2]

theorem mem_of_get_eq_some (m : Variants) (k : String) (v : List String)
    (h : get m k = some v) : (k, v) ∈ m := by
  induction m with
  | nil => simp [get] at h
  | cons e rest ih =>
    obtain ⟨a, b⟩ := e
    by_cases hk : a = k
    · simp [get, hk] at h
      simp [hk, h]
    · simp [get, hk] at h
      exact List.mem_cons_of_mem _ (ih h)

theorem get_eq_some_of_mem (m : Variants) (hm : WF m) (k : String)
    (v : List String) (h : (k, v) ∈ m) : get m k = some v := by
  induction m with
  | nil => simp at h
  | cons e rest ih =>
    obtain ⟨a, b⟩ := e
    simp only [WF, keys, List.map_cons, List.nodup_cons] at hm
    rcases List.mem_cons.mp h with h | h
    · cases h
      simp [get]
    · have hne : ¬ a = k := by
        intro hak
        subst hak
        exact hm.1 (List.mem_map.mpr ⟨(a, v), h, rfl⟩)
      simp only [get, hne, if_false]
      exact ih hm.2 h

theorem keys_set (m : Variants) (k : String) (v : List String) :
    keys (set m k v) = if k ∈ keys m then keys m else keys m ++ [k] := by
  induction m with
  | nil => simp [set, keys]
  | cons e rest ih =>
    obtain ⟨a, b⟩ := e
    by_cases h : a = k
    · simp [set, keys, h]
    · have h' : ¬ k = a := fun hh => h hh.symm
      simp only [keys] at ih
      by_cases hk : k ∈ List.map Prod.fst rest
      · simp [set, keys, h, h', hk, ih]
      · simp [set, keys, h, h', hk, ih]

theorem wf_set (m : Variants) (k : String) (v : List String) (hm : WF m) :
    WF (set m k v) := by
  unfold WF at *
  rw [keys_set]
  split
  · exact hm
  · next h =>
    exact List.Nodup.append hm (List.nodup_singleton k) (by simpa using h)

theorem mem_set (m : Variants) (k : String) (v : List String)
    (e : String × List String) (h : e ∈ set m k v) :
    e = (k, v) ∨ e ∈ m := by
  induction m with
  | nil => simpa [set] using h
  | cons e' rest ih =>
    obtain ⟨a, b⟩ := e'
    by_cases hk : a = k
    · simp only [set, hk, if_true, List.mem_cons] at h
      rcases h with h | h
      · exact Or.inl h
      · exact Or.inr (List.mem_cons_of_mem _ h)
    · simp only [set, hk, if_false, List.mem_cons] at h
      rcases h with h | h
      · exact Or.inr (h ▸ List.mem_cons_self _ _)
      · rcases ih h with h | h
        · exact Or.inl h
        · exact Or.inr (List.mem_cons_of_mem _ h)

end Variants

/-! ## Lemmas on the loops of `filterVariants` -/

section FilterLemmas

variable (lowerRune : Char → Char)

theorem toLower_eq_empty_iff (s : String) : ToLower lowerRune s = "" ↔ s = "" := by
  constructor
  · intro h
    have h1 : (ToLower lowerRune s).data = [] := by rw [h]
    simp only [ToLower, List.map_eq_nil_iff] at h1
    exact String.ext h1
  · intro h
    subst h
    rfl

theorem inner_loop (variant m : String) (vs : List String) (acc : Variants) :
    vs.foldl (filterStep lowerRune variant m) acc =
      if matching lowerRune variant vs = [] then acc
      else acc.set m (acc.getD m ++ matching lowerRune variant vs) := by
  induction vs generalizing acc with
  | nil => simp [matching]
  | cons v rest ih =>
    rw [List.foldl_cons, ih]
    by_cases hv : ToLower lowerRune v = ToLower lowerRune variant
    · have hm : matching lowerRune variant (v :: rest)
          = v :: matching lowerRune variant rest := by
        simp [matching, hv]
      rw [hm]
      simp only [filterStep, hv, if_true, Variants.getD_set_self, Variants.set_set]
      by_cases hr : matching lowerRune variant rest = []
      · simp [hr]
      · simp [hr]
    · have hm : matching lowerRune variant (v :: rest)
          = matching lowerRune variant rest := by
        simp [matching, hv]
      rw [hm]
      simp [filterStep, hv]

theorem filterLoop_eq (variant : String) (es acc : Variants) :
    filterLoop lowerRune variant es acc = es.foldl (outerStep lowerRune variant) acc := by
  unfold filterLoop
  congr 1
  funext acc e
  exact inner_loop lowerRune variant e.1 e.2 acc

theorem filterLoop_nil (variant : String) (acc : Variants) :
    filterLoop lowerRune variant [] acc = acc := rfl

theorem filterLoop_cons (variant : String) (e : String × List String)
    (es acc : Variants) :
    filterLoop lowerRune variant (e :: es) acc =
      filterLoop lowerRune variant es (outerStep lowerRune variant acc e) := by
  simp only [filterLoop_eq, List.foldl_cons]

theorem get_filterLoop (variant : String) (es acc : Variants) (k : String) :
    (filterLoop lowerRune variant es acc).get k =
      if collect lowerRune variant es k = [] then acc.get k
      else some (acc.getD k ++ collect lowerRune variant es k) := by
  induction es generalizing acc with
  | nil => simp [filterLoop_nil, collect]
  | cons e rest ih =>
    rw [filterLoop_cons, ih]
    obtain ⟨a, b⟩ := e
    by_cases hm : matching lowerRune variant b = []
    · by_cases hk : a = k <;> simp [outerStep, collect, hm, hk]
    · by_cases hk : a = k
      · subst hk
        by_cases hc : collect lowerRune variant rest a = []
        · simp [outerStep, collect, hm, hc, Variants.get_set]
        · simp [outerStep, collect, hm, hc, Variants.getD_set_self]
      · simp [outerStep, collect, hm, hk, Variants.get_set, Variants.getD]

theorem collect_of_not_mem (variant : String) (es : Variants) (k : String)
    (h : k ∉ Variants.keys es) : collect lowerRune variant es k = [] := by
  induction es with
  | nil => rfl
  | cons e rest ih =>
    simp only [Variants.keys, List.map_cons, List.mem_cons, not_or] at h
    have h1 : ¬ e.1 = k := fun hh => h.1 hh.symm
    simp only [collect, h1, if_false]
    exact ih h.2

theorem collect_of_wf (variant : String) (es : Variants) (hes : Variants.WF es)
    (k : String) :
    collect lowerRune variant es k = matching lowerRune variant (es.getD k) := by
  induction es with
  | nil => simp [collect, Variants.getD, Variants.get, matching]
  | cons e rest ih =>
    obtain ⟨a, b⟩ := e
    simp only [Variants.WF, Variants.keys, List.map_cons, List.nodup_cons] at hes
    by_cases hk : a = k
    · subst hk
      simp [collect, Variants.getD, Variants.get,
        collect_of_not_mem lowerRune variant rest a hes.1]
    · have := ih hes.2
      simpa [collect, Variants.getD, Variants.get, hk] using this

theorem matching_append (variant : String) (xs ys : List String) :
    matching lowerRune variant (xs ++ ys) =
      matching lowerRune variant xs ++ matching lowerRune variant ys := by
  simp [matching]

theorem matching_idem (variant : String) (xs : List String) :
    matching lowerRune variant (matching lowerRune variant xs) =
      matching lowerRune variant xs := by
  simp [matching, List.filter_filter]

theorem matching_getD (variant : String) (acc : Variants)
    (h : AllMatching lowerRune variant acc) (k : String) :
    matching lowerRune variant (acc.getD k) = acc.getD k := by
  unfold Variants.getD
  cases hg : acc.get k with
  | none => simp [matching]
  | some v => exact (h _ (Variants.mem_of_get_eq_some acc k v hg)).2

theorem allMatching_outerStep (variant : String) (acc : Variants)
    (e : String × List String) (h : AllMatching lowerRune variant acc) :
    AllMatching lowerRune variant (outerStep lowerRune variant acc e) := by
  unfold outerStep
  split
  · exact h
  · next hne =>
    intro e' he'
    rcases Variants.mem_set _ _ _ _ he' with h1 | h1
    · subst h1
      refine ⟨?_, ?_⟩
      · simp [hne]
      · simp only [matching_append, matching_idem, matching_getD lowerRune variant acc h]
    · exact h e' h1

theorem wf_outerStep (variant : String) (acc : Variants)
    (e : String × List String) (h : Variants.WF acc) :
    Variants.WF (outerStep lowerRune variant acc e) := by
  unfold outerStep
  split
  · exact h
  · exact Variants.wf_set _ _ _ h

theorem filterLoop_invariant (variant : String) (es acc : Variants)
    (hw : Variants.WF acc) (hm : AllMatching lowerRune variant acc) :
    Variants.WF (filterLoop lowerRune variant es acc) ∧
      AllMatching lowerRune variant (filterLoop lowerRune variant es acc) := by
  induction es generalizing acc with
  | nil => exact ⟨hw, hm⟩
  | cons e rest ih =>
    rw [filterLoop_cons]
    exact ih _ (wf_outerStep lowerRune variant acc e hw)
      (allMatching_outerStep lowerRune variant acc e hm)

theorem filterLoop_from_empty (variant : String) (es : Variants) :
    Variants.WF (filterLoop lowerRune variant es []) ∧
      AllMatching lowerRune variant (filterLoop lowerRune variant es []) :=
  filterLoop_invariant lowerRune variant es []
    (by simp [Variants.WF, Variants.keys]) (by intro e he; simp at he)

/-- Filtering a map whose values are already non-empty lists of matching
variants appends its entries, unchanged, to the map built so far. -/
theorem filterLoop_fixed (variant : String) (es acc : Variants)
    (hes : Variants.WF es) (hm : AllMatching lowerRune variant es)
    (hd : ∀ k ∈ Variants.keys es, k ∉ Variants.keys acc) :
    filterLoop lowerRune variant es acc = acc ++ es := by
  induction es generalizing acc with
  | nil => simp [filterLoop_nil]
  | cons e rest ih =>
    obtain ⟨a, b⟩ := e
    rw [filterLoop_cons]
    have hb := hm (a, b) (List.mem_cons_self _ _)
    simp only at hb
    have ha : a ∉ Variants.keys acc := hd a (by simp [Variants.keys])
    have hstep : outerStep lowerRune variant acc (a, b) = acc ++ [(a, b)] := by
      have hne : ¬ matching lowerRune variant b = [] := by rw [hb.2]; exact hb.1
      have hg : acc.getD a = [] := by
        simp [Variants.getD, (Variants.get_eq_none_iff acc a).mpr ha]
      unfold outerStep
      simp only [hne, if_false, hg, List.nil_append]
      rw [hb.2]
      exact Variants.set_of_not_mem acc a b ha
    rw [hstep]
    simp only [Variants.WF, Variants.keys, List.map_cons, List.nodup_cons] at hes
    rw [ih (acc ++ [(a, b)]) hes.2 (fun e he => hm e (List.mem_cons_of_mem _ he))]
    · simp
    · intro k hk hk'
      simp only [Variants.keys, List.map_append, List.map_cons, List.map_nil,
        List.mem_append, List.mem_singleton] at hk'
      rcases hk' with hk' | hk'
      · exact hd k (by simp only [Variants.keys, List.map_cons, List.mem_cons]
                       exact Or.inr hk) hk'
      · subst hk'
        exact hes.1 hk

theorem pairs_ne_nil_of_allMatching (variant : String) (m : Variants)
    (hm : AllMatching lowerRune variant m) (hne : m ≠ []) :
    Variants.pairs m ≠ [] := by
  cases m with
  | nil => exact absurd rfl hne
  | cons e rest =>
    have := (hm e (List.mem_cons_self _ _)).1
    obtain ⟨a, b⟩ := e
    cases b with
    | nil => exact absurd rfl this
    | cons x xs => simp [Variants.pairs]

theorem restrictModule_ok (module : String) (all res : Variants)
    (h : restrictModule module all = .ok res) :
    (module = "" ∧ res = all) ∨
      (module ≠ "" ∧ ∃ x, all.get module = some x ∧ res = [(module, x)]) := by
  unfold restrictModule at h
  by_cases hm : module = ""
  · left
    simp only [hm, ne_eq, not_true_eq_false, if_false] at h
    cases h
    exact ⟨hm, rfl⟩
  · right
    simp only [ne_eq, hm, not_false_eq_true, if_true] at h
    cases hg : all.get module with
    | none => simp [hg] at h
    | some x =>
      simp only [hg] at h
      cases h
      exact ⟨hm, x, rfl, rfl⟩

theorem restrictModule_fixed (module : String) (all res : Variants)
    (h : restrictModule module all = .ok res) :
    restrictModule module res = .ok res := by
  rcases restrictModule_ok module all res h with ⟨hm, _⟩ | ⟨hm, x, _, hres⟩
  · simp [restrictModule, hm]
  · subst hres
    simp [restrictModule, hm, Variants.get]

theorem outerStep_ne_nil (variant : String) (acc : Variants)
    (e : String × List String) (h : acc ≠ []) :
    outerStep lowerRune variant acc e ≠ [] := by
  unfold outerStep
  split
  · exact h
  · cases acc with
    | nil => exact absurd rfl h
    | cons a rest =>
      simp only [Variants.set]
      split <;> simp

theorem filterLoop_ne_nil (variant : String) (es acc : Variants) (h : acc ≠ []) :
    filterLoop lowerRune variant es acc ≠ [] := by
  induction es generalizing acc with
  | nil => exact h
  | cons e rest ih =>
    rw [filterLoop_cons]
    exact ih _ (outerStep_ne_nil lowerRune variant acc e h)

theorem filterLoop_eq_nil_iff (variant : String) (es : Variants) :
    filterLoop lowerRune variant es [] = [] ↔
      ∀ e ∈ es, matching lowerRune variant e.2 = [] := by
  induction es with
  | nil => simp [filterLoop_nil]
  | cons e rest ih =>
    rw [filterLoop_cons]
    by_cases hm : matching lowerRune variant e.2 = []
    · simp only [outerStep, hm, if_true, ih, List.mem_cons, forall_eq_or_imp, true_and]
    · constructor
      · intro h
        exfalso
        refine filterLoop_ne_nil lowerRune variant rest _ ?_ h
        simp [outerStep, hm, Variants.set]
      · intro h
        exact absurd (h e (List.mem_cons_self _ _)) hm

theorem matching_eq_nil_iff (variant : String) (xs : List String) :
    matching lowerRune variant xs = [] ↔
      ∀ x ∈ xs, ToLower lowerRune x ≠ ToLower lowerRune variant := by
  simp [matching, List.filter_eq_nil_iff]

theorem filterStep_congr (v1 v2 : String)
    (h : ToLower lowerRune v1 = ToLower lowerRune v2) :
    filterLoop lowerRune v1 = filterLoop lowerRune v2 := by
  funext es acc
  unfold filterLoop
  congr 1
  funext acc e
  congr 1
  funext acc x
  simp [filterStep, h]

theorem filterVariants_ok_of_variant (module variant : String) (all r : Variants)
    (hv : variant ≠ "")
    (h : filterVariants lowerRune module variant all = .ok r) :
    ∃ restricted, restrictModule module all = .ok restricted ∧
      r = filterLoop lowerRune variant restricted [] ∧ r ≠ [] := by
  unfold filterVariants at h
  cases hr : restrictModule module all with
  | error e => simp [hr] at h
  | ok restricted =>
    simp only [hr, hv, if_false] at h
    by_cases hl : (filterLoop lowerRune variant restricted []).length = 0
    · simp [hl] at h
    · simp only [hl, if_false] at h
      cases h
      exact ⟨restricted, rfl, rfl, fun hh => hl (by rw [hh]; rfl)⟩

theorem filterVariants_ok_of_no_variant (module : String) (all r : Variants)
    (h : filterVariants lowerRune module "" all = .ok r) :
    restrictModule module all = .ok r := by
  unfold filterVariants at h
  cases hr : restrictModule module all with
  | error e => simp [hr] at h
  | ok restricted =>
    simp only [hr, if_true] at h
    exact h

theorem filterVariants_ok_shape (module variant : String) (all r : Variants)
    (h : filterVariants lowerRune module variant all = .ok r) :
    (module ≠ "" → ∃ y, r = [(module, y)]) ∧
      (variant ≠ "" →
        Variants.WF r ∧ AllMatching lowerRune variant r ∧ r ≠ []) := by
  by_cases hv : variant = ""
  · subst hv
    have hr := filterVariants_ok_of_no_variant lowerRune module all r h
    refine ⟨fun hm => ?_, fun hne => absurd rfl hne⟩
    rcases restrictModule_ok module all r hr with ⟨hm', _⟩ | ⟨_, x, _, hx⟩
    · exact absurd hm' hm
    · exact ⟨x, hx⟩
  · obtain ⟨restricted, hres, hr, hne⟩ :=
      filterVariants_ok_of_variant lowerRune module variant all r hv h
    have hinv := filterLoop_from_empty lowerRune variant restricted
    rw [← hr] at hinv
    refine ⟨fun hm => ?_, fun _ => ⟨hinv.1, hinv.2, hne⟩⟩
    rcases restrictModule_ok module all restricted hres with ⟨hm', _⟩ | ⟨_, x, _, hx⟩
    · exact absurd hm' hm
    · subst hx
      have hr' : r = outerStep lowerRune variant [] (module, x) := by
        rw [hr, filterLoop_cons, filterLoop_nil]
      by_cases hmx : matching lowerRune variant x = []
      · exfalso
        apply hne
        rw [hr']
        simp [outerStep, hmx]
      · refine ⟨matching lowerRune variant x, ?_⟩
        rw [hr']
        simp [outerStep, hmx, Variants.set, Variants.getD, Variants.get]

theorem filterVariants_of_shape (module variant : String) (r : Variants)
    (h1 : module ≠ "" → ∃ y, r = [(module, y)])
    (h2 : variant ≠ "" →
      Variants.WF r ∧ AllMatching lowerRune variant r ∧ r ≠ []) :
    filterVariants lowerRune module variant r = .ok r := by
  have hrestr : restrictModule module r = .ok r := by
    by_cases hm : module = ""
    · simp [restrictModule, hm]
    · obtain ⟨y, hy⟩ := h1 hm
      rw [hy]
      simp [restrictModule, hm, Variants.get]
  by_cases hv : variant = ""
  · simp [filterVariants, hrestr, hv]
  · obtain ⟨hw, hm, hne⟩ := h2 hv
    have hfix : filterLoop lowerRune variant r [] = r := by
      rw [filterLoop_fixed lowerRune variant r [] hw hm
        (by intro k _; simp [Variants.keys])]
      rfl
    have hlen : ¬ r.length = 0 := fun hl => hne (List.length_eq_zero.mp hl)
    simp [filterVariants, hrestr, hv, hfix, hlen]

theorem wf_of_perm (m m' : Variants) (hp : m'.Perm m) (hw : Variants.WF m) :
    Variants.WF m' := by
  unfold Variants.WF Variants.keys at *
  exact ((hp.map Prod.fst).nodup_iff).mpr hw

theorem get_of_perm (m m' : Variants) (hp : m'.Perm m) (hw : Variants.WF m)
    (k : String) : m'.get k = m.get k := by
  have hw' := wf_of_perm m m' hp hw
  cases hg : m.get k with
  | none =>
    rw [Variants.get_eq_none_iff] at hg ⊢
    intro hk
    apply hg
    unfold Variants.keys at *
    exact ((hp.map Prod.fst).mem_iff).mp hk
  | some v =>
    exact Variants.get_eq_some_of_mem m' hw' k v
      (hp.mem_iff.mpr (Variants.mem_of_get_eq_some m k v hg))

/-- C4: `filterVariants` is idempotent: when `filterVariants m v all`
succeeds with result `r`, then on `r`, its entries listed in any order
`r'`, `filterVariants m v` succeeds and returns that same map (same module
keys, same variant sequences). -/
theorem filterVariants_idempotent (module variant : String) (all r r' : Variants)
    (h : filterVariants lowerRune module variant all = .ok r) (hp : r'.Perm r) :
    filterVariants lowerRune module variant r' = .ok r' := by
  obtain ⟨h1, h2⟩ := filterVariants_ok_shape lowerRune module variant all r h
  apply filterVariants_of_shape
  · intro hm
    obtain ⟨y, hy⟩ := h1 hm
    rw [hy] at hp
    exact ⟨y, List.perm_singleton.mp hp⟩
  · intro hv
    obtain ⟨hw, hm, hne⟩ := h2 hv
    refine ⟨wf_of_perm r r' hp hw, fun e he => hm e (hp.mem_iff.mp he), ?_⟩
    intro hnil
    rw [hnil] at hp
    exact hne (List.perm_nil.mp hp.symm)

end FilterLemmas

/-- Witness for C4 on the spec's happy-path project. -/
theorem filterVariants_idempotent_witness :
    filterVariants asciiLower "" "Debug" [("app", ["debug", "release"])]
        = .ok [("app", ["debug"])] ∧
      filterVariants asciiLower "" "Debug" [("app", ["debug"])]
        = .ok [("app", ["debug"])] :=
  ⟨by rfl, filterVariants_idempotent asciiLower "" "Debug"
    [("app", ["debug", "release"])] [("app", ["debug"])] [("app", ["debug"])]
    (by rfl) (List.Perm.refl _)⟩

section FilterClaims

variable (lowerRune : Char → Char)

/-- C5: `filterVariants` is case-insensitive on the variant selector: for
selectors `v1`, `v2` with equal lowercased forms, the two calls either both
fail or both succeed with the same map. -/
theorem filterVariants_case_insensitive (module v1 v2 : String) (all : Variants)
    (h : ToLower lowerRune v1 = ToLower lowerRune v2) :
    (∃ e1 e2, filterVariants lowerRune module v1 all = .error e1 ∧
        filterVariants lowerRune module v2 all = .error e2) ∨
      (∃ r, filterVariants lowerRune module v1 all = .ok r ∧
        filterVariants lowerRune module v2 all = .ok r) := by
  have hempty : v1 = "" ↔ v2 = "" := by
    rw [← toLower_eq_empty_iff lowerRune v1, ← toLower_eq_empty_iff lowerRune v2, h]
  have hloop := filterStep_congr lowerRune v1 v2 h
  unfold filterVariants
  cases hr : restrictModule module all with
  | error e => exact Or.inl ⟨e, e, rfl, rfl⟩
  | ok restricted =>
    by_cases hv : v1 = ""
    · right
      have hv2 := hempty.mp hv
      exact ⟨restricted, by simp [hv], by simp [hv2]⟩
    · have hv2 : ¬ v2 = "" := fun hh => hv (hempty.mpr hh)
      simp only [hv, hv2, if_false, hloop]
      by_cases hl : (filterLoop lowerRune v2 restricted []).length = 0
      · left
        simp only [hl, if_true]
        exact ⟨_, _, rfl, rfl⟩
      · right
        simp only [hl, if_false]
        exact ⟨_, rfl, rfl⟩

/-- C6 (amended): when `filterVariants` returns without error and the
variant selector is non-empty, the returned map holds at least one
(module, variant) pair; with an empty variant selector the returned map is
the module-restricted input map, unchanged. -/
theorem filterVariants_nonempty (module variant : String) (all r : Variants)
    (h : filterVariants lowerRune module variant all = .ok r) :
    (variant ≠ "" → r.pairs ≠ []) ∧
      (variant = "" → restrictModule module all = .ok r) := by
  constructor
  · intro hv
    obtain ⟨restricted, _, hr, hne⟩ :=
      filterVariants_ok_of_variant lowerRune module variant all r hv h
    have hinv := filterLoop_from_empty lowerRune variant restricted
    rw [← hr] at hinv
    exact pairs_ne_nil_of_allMatching lowerRune variant r hinv.2 hne
  · intro hv
    subst hv
    exact filterVariants_ok_of_no_variant lowerRune module all r h

end FilterClaims

/-- Witness for C5: the selectors `Debug` and `DEBUG` select the same map. -/
theorem filterVariants_case_insensitive_witness :
    ToLower asciiLower "Debug" = ToLower asciiLower "DEBUG" ∧
    ((∃ e1 e2, filterVariants asciiLower "" "Debug" [("app", ["debug", "release"])]
          = .error e1 ∧
        filterVariants asciiLower "" "DEBUG" [("app", ["debug", "release"])]
          = .error e2) ∨
      (∃ r, filterVariants asciiLower "" "Debug" [("app", ["debug", "release"])]
          = .ok r ∧
        filterVariants asciiLower "" "DEBUG" [("app", ["debug", "release"])]
          = .ok r)) :=
  ⟨by decide, filterVariants_case_insensitive asciiLower "" "Debug" "DEBUG"
    [("app", ["debug", "release"])] (by decide)⟩

/-- Counterexample to C6 as stated: with both selectors empty and an empty
variants map, `filterVariants` succeeds with a map holding no pair. -/
theorem filterVariants_empty_success :
    ¬ (∀ r : Variants, filterVariants asciiLower "" "" [] = .ok r →
        ∃ p, p ∈ r.pairs) := by
  intro h
  obtain ⟨p, hp⟩ := h [] rfl
  simp [Variants.pairs] at hp

/-- Witness for C6 (amended) on the spec's happy-path project. -/
theorem filterVariants_nonempty_witness :
    filterVariants asciiLower "" "Debug" [("app", ["debug", "release"])]
        = .ok [("app", ["debug"])] ∧
      (("Debug" ≠ "" → Variants.pairs [("app", ["debug"])] ≠ []) ∧
        ("Debug" = "" →
          restrictModule "" [("app", ["debug", "release"])]
            = .ok [("app", ["debug"])])) :=
  ⟨by rfl, filterVariants_nonempty asciiLower "" "Debug"
    [("app", ["debug", "release"])] [("app", ["debug"])] (by rfl)⟩

theorem restrictedMap_of_ok (module : String) (all res : Variants)
    (h : restrictModule module all = .ok res) : restrictedMap module all = res := by
  rcases restrictModule_ok module all res h with ⟨hm, hres⟩ | ⟨hm, x, hx, hres⟩
  · simp [restrictedMap, hm, hres]
  · simp [restrictedMap, hm, hx, hres]

theorem restrictModule_total (module : String) (all : Variants) :
    restrictModule module all =
      if module ≠ "" ∧ module ∉ all.keys then .error ("module not found: " ++ module)
      else .ok (restrictedMap module all) := by
  unfold restrictModule restrictedMap
  by_cases hm : module = ""
  · simp [hm]
  · cases hg : all.get module with
    | none =>
      have := (Variants.get_eq_none_iff all module).mp hg
      simp [hm, this]
    | some x =>
      have : ¬ module ∉ all.keys := by
        rw [← Variants.get_eq_none_iff, hg]
        simp
      simp [hm, this]

section FilterClaims2

variable (lowerRune : Char → Char)

/-- C7: `filterVariants` returns an error if and only if (a) the module
selector is non-empty and is not a key of the variants map (exact string
comparison), or (b) the variant selector is non-empty and no variant of the
module-restricted map equals it after lowercasing.  The module check comes
first: under (a) the error is the module-not-found one; under (b) without
(a) it is the variant-not-found one. -/
theorem filterVariants_error_iff (module variant : String) (all : Variants) :
    ((∃ e, filterVariants lowerRune module variant all = .error e) ↔
      ((module ≠ "" ∧ module ∉ all.keys) ∨
        (variant ≠ "" ∧ ∀ e ∈ restrictedMap module all, ∀ x ∈ e.2,
          ToLower lowerRune x ≠ ToLower lowerRune variant))) ∧
    ((module ≠ "" ∧ module ∉ all.keys) →
      filterVariants lowerRune module variant all
        = .error ("module not found: " ++ module)) ∧
    (¬ (module ≠ "" ∧ module ∉ all.keys) →
      (variant ≠ "" ∧ ∀ e ∈ restrictedMap module all, ∀ x ∈ e.2,
          ToLower lowerRune x ≠ ToLower lowerRune variant) →
      filterVariants lowerRune module variant all
        = .error ("variant " ++ variant ++ " not found in any module")) := by
  have hloop : filterLoop lowerRune variant (restrictedMap module all) [] = [] ↔
      ∀ e ∈ restrictedMap module all, ∀ x ∈ e.2,
        ToLower lowerRune x ≠ ToLower lowerRune variant := by
    rw [filterLoop_eq_nil_iff]
    constructor
    · intro h e he
      exact (matching_eq_nil_iff lowerRune variant e.2).mp (h e he)
    · intro h e he
      exact (matching_eq_nil_iff lowerRune variant e.2).mpr (h e he)
  by_cases ha : module ≠ "" ∧ module ∉ all.keys
  · have hf : filterVariants lowerRune module variant all
        = .error ("module not found: " ++ module) := by
      unfold filterVariants
      rw [restrictModule_total, if_pos ha]
    refine ⟨?_, fun _ => hf, fun hna => absurd ha hna⟩
    constructor
    · intro _
      exact Or.inl ha
    · intro _
      exact ⟨_, hf⟩
  · by_cases hv : variant = ""
    · have hf : filterVariants lowerRune module variant all
          = .ok (restrictedMap module all) := by
        unfold filterVariants
        rw [restrictModule_total, if_neg ha]
        simp only [hv, if_true]
      refine ⟨?_, fun h => absurd h ha, fun _ hb => absurd hv hb.1⟩
      constructor
      · rintro ⟨e, he⟩
        rw [hf] at he
        cases he
      · rintro (h | h)
        · exact absurd h ha
        · exact absurd hv h.1
    · by_cases hl : filterLoop lowerRune variant (restrictedMap module all) [] = []
      · have hf : filterVariants lowerRune module variant all
            = .error ("variant " ++ variant ++ " not found in any module") := by
          unfold filterVariants
          rw [restrictModule_total, if_neg ha]
          simp only [hv, hl, if_false, List.length_nil, if_true]
        refine ⟨?_, fun h => absurd h ha, fun _ _ => hf⟩
        constructor
        · intro _
          exact Or.inr ⟨hv, hloop.mp hl⟩
        · intro _
          exact ⟨_, hf⟩
      · have hlen : ¬ (filterLoop lowerRune variant (restrictedMap module all) []).length
            = 0 := fun hh => hl (List.length_eq_zero.mp hh)
        have hf : filterVariants lowerRune module variant all
            = .ok (filterLoop lowerRune variant (restrictedMap module all) []) := by
          unfold filterVariants
          rw [restrictModule_total, if_neg ha]
          simp only [hv, hlen, if_false]
        refine ⟨?_, fun h => absurd h ha, fun _ hb => absurd (hloop.mpr hb.2) hl⟩
        constructor
        · rintro ⟨e, he⟩
          rw [hf] at he
          cases he
        · rintro (h | h)
          · exact absurd h ha
          · exact absurd (hloop.mpr h.2) hl

end FilterClaims2

theorem restrictedMap_wf (module : String) (all : Variants) (hw : all.WF) :
    (restrictedMap module all).WF := by
  unfold restrictedMap
  split
  · exact hw
  · split <;> simp [Variants.WF, Variants.keys]

theorem restrictedMap_subset (module : String) (all : Variants) :
    ∀ e ∈ restrictedMap module all, e ∈ all := by
  intro e he
  unfold restrictedMap at he
  split at he
  · exact he
  · split at he
    · next x hx =>
      simp only [List.mem_singleton] at he
      subst he
      exact Variants.mem_of_get_eq_some all module x hx
    · simp at he

theorem mem_pairs_iff (m : Variants) (p : String × String) :
    p ∈ m.pairs ↔ ∃ e ∈ m, p.1 = e.1 ∧ p.2 ∈ e.2 := by
  obtain ⟨a, b⟩ := p
  simp only [Variants.pairs, List.mem_flatMap, List.mem_map, Prod.mk.injEq]
  constructor
  · rintro ⟨e, he, x, hx, h1, h2⟩
    exact ⟨e, he, h1.symm, h2 ▸ hx⟩
  · rintro ⟨e, he, h1, h2⟩
    exact ⟨e, he, b, h2, h1.symm, rfl⟩

section FilterClaims3

variable (lowerRune : Char → Char)

/-- The outcome of `filterVariants` does not depend on the order in which
the entries of the variants map are listed: on two listings of the same map
it fails with the same error, or succeeds with maps that agree on every
key. -/
theorem filterVariants_perm (module variant : String) (all all' : Variants)
    (hw : Variants.WF all) (hp : all'.Perm all) :
    (∀ e, filterVariants lowerRune module variant all = .error e →
      filterVariants lowerRune module variant all' = .error e) ∧
    (∀ r, filterVariants lowerRune module variant all = .ok r →
      ∃ r', filterVariants lowerRune module variant all' = .ok r' ∧
        ∀ k, r'.get k = r.get k) := by
  have hw' := wf_of_perm all all' hp hw
  have hget := get_of_perm all all' hp hw
  have hgetR : ∀ k, (restrictedMap module all').get k = (restrictedMap module all).get k := by
    intro k
    unfold restrictedMap
    by_cases hm : module = ""
    · simp only [hm, if_true]
      exact hget k
    · simp only [hm, if_false, hget module]
  have hkeys : (module ≠ "" ∧ module ∉ Variants.keys all') ↔
      (module ≠ "" ∧ module ∉ Variants.keys all) := by
    rw [← Variants.get_eq_none_iff, ← Variants.get_eq_none_iff, hget module]
  have hnil : filterLoop lowerRune variant (restrictedMap module all') [] = [] ↔
      filterLoop lowerRune variant (restrictedMap module all) [] = [] := by
    rw [filterLoop_eq_nil_iff, filterLoop_eq_nil_iff]
    have hmem : ∀ e, e ∈ restrictedMap module all' ↔ e ∈ restrictedMap module all := by
      intro e
      unfold restrictedMap
      by_cases hm : module = ""
      · simp only [hm, if_true]
        exact hp.mem_iff
      · simp only [hm, if_false, hget module]
    constructor
    · intro h e he
      exact h e ((hmem e).mpr he)
    · intro h e he
      exact h e ((hmem e).mp he)
  have hloop : ∀ k, (filterLoop lowerRune variant (restrictedMap module all') []).get k =
      (filterLoop lowerRune variant (restrictedMap module all) []).get k := by
    intro k
    rw [get_filterLoop, get_filterLoop,
      collect_of_wf lowerRune variant _ (restrictedMap_wf module all' hw'),
      collect_of_wf lowerRune variant _ (restrictedMap_wf module all hw)]
    unfold Variants.getD
    rw [hgetR k]
  unfold filterVariants
  rw [restrictModule_total, restrictModule_total]
  by_cases ha : module ≠ "" ∧ module ∉ Variants.keys all
  · rw [if_pos ha, if_pos (hkeys.mpr ha)]
    exact ⟨fun e he => he, fun r hr => by cases hr⟩
  · rw [if_neg ha, if_neg (fun h => ha (hkeys.mp h))]
    simp only
    by_cases hv : variant = ""
    · simp only [hv, if_true]
      refine ⟨fun e he => (by cases he), fun r hr => ?_⟩
      cases hr
      exact ⟨_, rfl, hgetR⟩
    · simp only [hv, if_false]
      by_cases hl : filterLoop lowerRune variant (restrictedMap module all) [] = []
      · have hl' := hnil.mpr hl
        simp only [hl, hl', List.length_nil, if_true]
        exact ⟨fun e he => he, fun r hr => by cases hr⟩
      · have hl' : ¬ filterLoop lowerRune variant (restrictedMap module all') [] = [] :=
          fun h => hl (hnil.mp h)
        have hlen : ¬ (filterLoop lowerRune variant (restrictedMap module all) []).length
            = 0 := fun hh => hl (List.length_eq_zero.mp hh)
        have hlen' : ¬ (filterLoop lowerRune variant (restrictedMap module all') []).length
            = 0 := fun hh => hl' (List.length_eq_zero.mp hh)
        simp only [hlen, hlen', if_false]
        refine ⟨fun e he => (by cases he), fun r hr => ?_⟩
        cases hr
        exact ⟨_, rfl, hloop⟩

/-- C8: for a non-empty variant selector and a variants map with distinct
keys, when `filterVariants` succeeds the module keys of the result are
exactly the modules of the module-restricted map with at least one variant
matching the selector after lowercasing; each such module maps to the
subsequence of its original variant list made of the matching variants
(original order, original casing); every (module, variant) pair of the
result is a pair of the input; and the result again has distinct keys. -/
theorem filterVariants_result (module variant : String) (all r : Variants)
    (hw : all.WF) (hv : variant ≠ "")
    (h : filterVariants lowerRune module variant all = .ok r) :
    restrictModule module all = .ok (restrictedMap module all) ∧
    r.WF ∧
    (∀ k, k ∈ r.keys ↔
      (k ∈ (restrictedMap module all).keys ∧
        ∃ x ∈ (restrictedMap module all).getD k,
          ToLower lowerRune x = ToLower lowerRune variant)) ∧
    (∀ k ∈ r.keys, r.get k = some (((restrictedMap module all).getD k).filter
      (fun x => decide (ToLower lowerRune x = ToLower lowerRune variant)))) ∧
    (∀ k ∈ r.keys, (r.getD k).Sublist (all.getD k)) ∧
    (∀ p ∈ r.pairs, p ∈ all.pairs) := by
  obtain ⟨restricted, hres, hr, _⟩ :=
    filterVariants_ok_of_variant lowerRune module variant all r hv h
  have hrm := restrictedMap_of_ok module all restricted hres
  subst hrm
  have hrw := restrictedMap_wf module all hw
  have hinv := filterLoop_from_empty lowerRune variant (restrictedMap module all)
  rw [← hr] at hinv
  have hget : ∀ k, r.get k =
      if matching lowerRune variant ((restrictedMap module all).getD k) = [] then none
      else some (matching lowerRune variant ((restrictedMap module all).getD k)) := by
    intro k
    rw [hr, get_filterLoop, collect_of_wf lowerRune variant _ hrw]
    simp [Variants.get, Variants.getD]
  have hkeys : ∀ k, k ∈ r.keys ↔
      matching lowerRune variant ((restrictedMap module all).getD k) ≠ [] := by
    intro k
    have := Variants.get_eq_none_iff r k
    rw [hget k] at this
    by_cases hm : matching lowerRune variant ((restrictedMap module all).getD k) = []
    · simp only [hm, if_true, true_iff] at this
      simp [hm, this]
    · simp only [hm, if_false, false_iff, not_not, reduceCtorEq] at this
      simp [hm, this]
  have hgetD : ∀ k, (restrictedMap module all).getD k ≠ [] →
      (k, (restrictedMap module all).getD k) ∈ all := by
    intro k hk
    apply restrictedMap_subset module all
    unfold Variants.getD at hk ⊢
    cases hg : (restrictedMap module all).get k with
    | none => simp [hg] at hk
    | some y => exact Variants.mem_of_get_eq_some _ k y hg
  have hne_of : ∀ k, matching lowerRune variant ((restrictedMap module all).getD k) ≠ [] →
      (restrictedMap module all).getD k ≠ [] := by
    intro k hk hnil
    apply hk
    rw [hnil]
    rfl
  refine ⟨hres, hinv.1, ?_, ?_, ?_, ?_⟩
  · intro k
    rw [hkeys k]
    constructor
    · intro hk
      refine ⟨?_, ?_⟩
      · have h1 := hne_of k hk
        by_contra hnk
        apply h1
        simp [Variants.getD, (Variants.get_eq_none_iff _ k).mpr hnk]
      · by_contra hno
        apply hk
        rw [matching_eq_nil_iff]
        intro x hx hxm
        exact hno ⟨x, hx, hxm⟩
    · rintro ⟨_, x, hx, hxm⟩ hnil
      exact (matching_eq_nil_iff lowerRune variant _).mp hnil x hx hxm
  · intro k hk
    have hk' := (hkeys k).mp hk
    rw [hget k]
    simp only [hk', if_false]
    rfl
  · intro k hk
    have hk' := (hkeys k).mp hk
    have h1 : r.getD k = matching lowerRune variant ((restrictedMap module all).getD k) := by
      unfold Variants.getD
      rw [hget k, if_neg hk']
      rfl
    have h2 : all.getD k = (restrictedMap module all).getD k := by
      have hmem := hgetD k (hne_of k hk')
      simp [Variants.getD, Variants.get_eq_some_of_mem all hw k _ hmem]
    rw [h1, h2]
    exact List.filter_sublist _
  · intro p hp
    obtain ⟨e, he, hp1, hp2⟩ := (mem_pairs_iff r p).mp hp
    have hge := Variants.get_eq_some_of_mem r hinv.1 e.1 e.2 he
    rw [hget e.1] at hge
    by_cases hm : matching lowerRune variant ((restrictedMap module all).getD e.1) = []
    · simp [hm] at hge
    · simp only [hm, if_false, Option.some.injEq] at hge
      rw [← hge] at hp2
      have hx : p.2 ∈ (restrictedMap module all).getD e.1 :=
        (List.mem_filter.mp hp2).1
      exact (mem_pairs_iff all p).mpr ⟨_, hgetD e.1 (hne_of e.1 hm), hp1, hx⟩

end FilterClaims3

/-- Witness for C8: the spec's happy-path project. -/
theorem filterVariants_result_witness :
    Variants.WF [("app", ["debug", "release"])] ∧ "Debug" ≠ "" ∧
    filterVariants asciiLower "" "Debug" [("app", ["debug", "release"])]
      = .ok [("app", ["debug"])] ∧
    (∀ p ∈ Variants.pairs [("app", ["debug"])],
      p ∈ Variants.pairs [("app", ["debug", "release"])]) :=
  ⟨by decide, by decide, by rfl,
    (filterVariants_result asciiLower "" "Debug" [("app", ["debug", "release"])]
      [("app", ["debug"])] (by decide) (by decide) (by rfl)).2.2.2.2.2⟩

/-! ## `getArtifacts` -/

/-- When the first pass succeeds, `getArtifacts` runs the second pass and
returns what the second pass returns. -/
theorem getArtifacts_of_first_ok (gradleProject : Project) (started : Time)
    (pattern : String) (includeModuleName isDirectoryMode : Bool)
    (first : List Artifact)
    (h : (if isDirectoryMode then gradleProject.FindDirs started pattern includeModuleName
          else gradleProject.FindArtifacts started pattern includeModuleName) = .ok first) :
    (getArtifacts gradleProject started pattern includeModuleName isDirectoryMode).2 =
      (if isDirectoryMode then gradleProject.FindDirs zeroTime pattern includeModuleName
        else gradleProject.FindArtifacts zeroTime pattern includeModuleName) ∧
    HarvestEvent.find zeroTime ∈
      (getArtifacts gradleProject started pattern includeModuleName isDirectoryMode).1 := by
  unfold getArtifacts
  cases h2 : (if isDirectoryMode then gradleProject.FindDirs zeroTime pattern includeModuleName
          else gradleProject.FindArtifacts zeroTime pattern includeModuleName) with
  | error e =>
    simp only [getArtifactsLoop, h, h2]
    split_ifs <;> simp
  | ok second =>
    simp only [getArtifactsLoop, h, h2]
    split_ifs <;> simp

/-- C1 (the code at the failing input): the first pass, with floor
`started = 5`, finds one report; `getArtifacts` nevertheless calls the
finder again with the zero floor and returns the two reports of that second
pass. -/
theorem getArtifacts_overwrites_first_pass :
    staleProject.FindDirs 5 "*build/reports/kover/html" true =
      .ok [⟨"/p/app/build/reports/kover/html", "app-html"⟩] ∧
    getArtifacts staleProject 5 "*build/reports/kover/html" true true =
      ([.find 5, .find 0],
        .ok [⟨"/p/app/build/reports/kover/html", "app-html"⟩,
             ⟨"/p/old/build/reports/kover/html", "old-html"⟩]) := by
  constructor <;> rfl

/-! ## `exportArtifacts` -/

theorem trimSuffix_append (d suffix : String) :
    TrimSuffix (d ++ suffix) suffix = d := by
  have hs : HasSuffix (d ++ suffix) suffix = true := by
    unfold HasSuffix
    rw [List.isSuffixOf_iff_suffix, String.data_append]
    exact List.suffix_append _ _
  unfold TrimSuffix
  rw [if_pos hs]
  apply String.ext
  simp [String.data_append]

theorem exportName_fresh (now : WallClock) (d : String) :
    exportName false now d = d ++ ".zip" := by
  simp [exportName]

theorem exportName_collision (now : WallClock) (d : String) :
    exportName true now d = d ++ "-" ++ formatTimestamp now ++ ".zip" := by
  simp [exportName, trimSuffix_append]

theorem exportName_collision_ne (now : WallClock) (d : String) :
    exportName true now d ≠ d ++ ".zip" := by
  rw [exportName_collision]
  intro h
  have h1 := congrArg (fun s => s.data.length) h
  simp only [String.data_append, List.length_append] at h1
  have h2 : ("-" : String).data.length = 1 := rfl
  rw [h2] at h1
  omega

theorem length_padDigits (width x : Nat) : (padDigits width x).length = width := by
  induction width generalizing x with
  | zero => rfl
  | succ w ih => simp [padDigits, ih]

theorem isDigit_digitOf (d : Nat) (h : d < 10) : (digitOf d).isDigit = true := by
  interval_cases d <;> rfl

theorem isDigit_padDigits (width x : Nat) :
    ∀ c ∈ padDigits width x, c.isDigit = true := by
  induction width generalizing x with
  | zero => intro c hc; simp [padDigits] at hc
  | succ w ih =>
    intro c hc
    simp only [padDigits, List.mem_append, List.mem_singleton] at hc
    rcases hc with hc | hc
    · exact ih _ c hc
    · subst hc
      exact isDigit_digitOf _ (Nat.mod_lt _ (by decide))

theorem appendInt_data (x width : Nat) (h : x < 10 ^ width) :
    (appendInt x width).data = padDigits width x := by
  simp [appendInt, h]

theorem exportArtifactsLoop_writes (env : DeployEnv) (present0 : List String)
    (i : Nat) (artifacts : List Artifact) (present : List String)
    (log : List WriteEvent) (hp : ∀ n ∈ present0, n ∈ present)
    (hlog : ∀ ev ∈ log, WriteOk env present0 ev) :
    (∀ ev ∈ (exportArtifactsLoop env i artifacts present log).1.1,
        WriteOk env present0 ev) ∧
      ∀ n ∈ present0, n ∈ (exportArtifactsLoop env i artifacts present log).1.2 := by
  induction artifacts generalizing i present log with
  | nil => exact ⟨hlog, hp⟩
  | cons a rest ih =>
    unfold exportArtifactsLoop
    cases hs : env.statErr (a.Name ++ ".zip") with
    | some err => exact ⟨hlog, hp⟩
    | none =>
      simp only
      apply ih
      · intro n hn
        split
        · exact List.mem_cons_of_mem _ (hp n hn)
        · exact hp n hn
      · intro ev hev
        rcases List.mem_append.mp hev with hev | hev
        · exact hlog ev hev
        · simp only [List.mem_singleton] at hev
          subst hev
          exact ⟨rfl, hp⟩

theorem exportArtifactsLoop_complete (env : DeployEnv)
    (i : Nat) (artifacts : List Artifact) (present : List String)
    (log : List WriteEvent)
    (hs : ∀ a ∈ artifacts, env.statErr (a.Name ++ ".zip") = none) :
    (exportArtifactsLoop env i artifacts present log).1.1.map WriteEvent.artifact =
        log.map WriteEvent.artifact ++ artifacts ∧
      (exportArtifactsLoop env i artifacts present log).2 = .ok () := by
  induction artifacts generalizing i present log with
  | nil => simp [exportArtifactsLoop]
  | cons a rest ih =>
    unfold exportArtifactsLoop
    rw [hs a (List.mem_cons_self _ _)]
    simp only
    have key := fun p l => ih (i + 1) p l (fun b hb => hs b (List.mem_cons_of_mem _ hb))
    rw [(key _ _).1, (key _ _).2]
    simp

/-- Counterexample to C2 as stated: with `app-debug.zip` and
`app-debug-20240115120000.zip` both present and the clock reading
2024-01-15 12:00:00, the zip of `app-debug` is written under a name that is
already present. -/
theorem exportArtifacts_overwrites_stamped :
    ¬ (∀ ev ∈ (exportArtifacts quietEnv
          ["app-debug.zip", "app-debug-20240115120000.zip"] [appDebug]).1.1,
        ev.target ∉ ev.before) := by
  intro h
  have hmem : appDebugWrite ["app-debug.zip", "app-debug-20240115120000.zip"] ∈
      (exportArtifacts quietEnv
        ["app-debug.zip", "app-debug-20240115120000.zip"] [appDebug]).1.1 := by
    have : (exportArtifacts quietEnv
        ["app-debug.zip", "app-debug-20240115120000.zip"] [appDebug]).1.1 =
        [appDebugWrite ["app-debug.zip", "app-debug-20240115120000.zip"]] := by rfl
    rw [this]
    exact List.mem_singleton.mpr rfl
  exact h _ hmem (by decide)

/-- C2 (amended): a write of `exportArtifacts` goes to a name already
present in `deployDir` only when both `<displayName>.zip` and the
timestamped name `<displayName>-<T>.zip` are present, and then it goes to
the timestamped name; a file present under `<displayName>.zip` is never the
target of the write; the names present when `exportArtifacts` starts are
still present at every write and at the end. -/
theorem exportArtifacts_no_overwrite (env : DeployEnv) (present : List String)
    (artifacts : List Artifact) :
    (∀ ev ∈ (exportArtifacts env present artifacts).1.1,
      (ev.target ∈ ev.before →
        ev.artifact.Name ++ ".zip" ∈ ev.before ∧
          ev.target = ev.artifact.Name ++ "-" ++
            formatTimestamp (env.now ev.index) ++ ".zip") ∧
      (ev.artifact.Name ++ ".zip" ∈ ev.before →
        ev.target ≠ ev.artifact.Name ++ ".zip") ∧
      (∀ n ∈ present, n ∈ ev.before)) ∧
    (∀ n ∈ present, n ∈ (exportArtifacts env present artifacts).1.2) := by
  have hloop := exportArtifactsLoop_writes env present 0 artifacts present []
    (fun _ hn => hn) (by intro ev hev; simp at hev)
  refine ⟨?_, hloop.2⟩
  intro ev hev
  obtain ⟨htarget, hbefore⟩ := hloop.1 ev hev
  by_cases hex : ev.artifact.Name ++ ".zip" ∈ ev.before
  · simp only [hex, decide_True] at htarget
    refine ⟨fun _ => ⟨hex, ?_⟩, fun _ => ?_, hbefore⟩
    · rw [htarget, exportName_collision]
    · rw [htarget]
      exact exportName_collision_ne _ _
  · simp only [hex, decide_False, exportName_fresh] at htarget
    refine ⟨fun hin => ?_, fun h => absurd h hex, hbefore⟩
    rw [htarget] at hin
    exact absurd hin hex

/-- Witness for C2 (amended): the collision of the spec's scenario 4. -/
theorem exportArtifacts_no_overwrite_witness :
    appDebugWrite ["app-debug.zip"] ∈
        (exportArtifacts quietEnv ["app-debug.zip"] [appDebug]).1.1 ∧
      (appDebugWrite ["app-debug.zip"]).target ≠ "app-debug" ++ ".zip" ∧
      "app-debug.zip" ∈ (exportArtifacts quietEnv ["app-debug.zip"] [appDebug]).1.2 :=
  ⟨List.mem_singleton.mpr rfl,
    ((exportArtifacts_no_overwrite quietEnv ["app-debug.zip"] [appDebug]).1
      (appDebugWrite ["app-debug.zip"]) (List.mem_singleton.mpr rfl)).2.1 (by decide),
    (exportArtifacts_no_overwrite quietEnv ["app-debug.zip"] [appDebug]).2
      "app-debug.zip" (by decide)⟩

theorem decimalDigit_eq (n place : Nat) :
    decimalDigit n place = digitOf (n / 10 ^ place % 10) := rfl

theorem isDigit_decimalDigit (n place : Nat) : (decimalDigit n place).isDigit = true :=
  isDigit_digitOf _ (Nat.mod_lt _ (by decide))

theorem padDigits_two (x : Nat) :
    padDigits 2 x = [decimalDigit x 1, decimalDigit x 0] := by
  simp [padDigits, decimalDigit_eq]

theorem padDigits_four (x : Nat) :
    padDigits 4 x =
      [decimalDigit x 3, decimalDigit x 2, decimalDigit x 1, decimalDigit x 0] := by
  simp [padDigits, decimalDigit_eq, Nat.div_div_eq_div_mul]

theorem decimalValue_append_singleton (l : List Char) (c : Char) :
    decimalValue (l ++ [c]) = 10 * decimalValue l + (c.toNat - 48) := by
  simp [decimalValue, List.foldl_append]

theorem toNat_digitOf (d : Nat) (h : d < 10) : (digitOf d).toNat - 48 = d := by
  interval_cases d <;> rfl

theorem decimalValue_padDigits (width x : Nat) :
    decimalValue (padDigits width x) = x % 10 ^ width := by
  induction width generalizing x with
  | zero => simp [padDigits, decimalValue, Nat.mod_one]
  | succ w ih =>
    rw [padDigits, decimalValue_append_singleton, ih,
      toNat_digitOf _ (Nat.mod_lt _ (by decide)), pow_succ', Nat.mod_mul]
    omega

theorem decimalValue_digits (l : List Nat) (h : ∀ d ∈ l, d < 10) :
    decimalValue ((l.map digitOf).reverse) = Nat.ofDigits 10 l := by
  induction l with
  | nil => simp [decimalValue]
  | cons a l ih =>
    rw [List.map_cons, List.reverse_cons, decimalValue_append_singleton,
      ih (fun d hd => h d (List.mem_cons_of_mem _ hd)),
      toNat_digitOf a (h a (List.mem_cons_self _ _)), Nat.ofDigits_cons]
    omega

theorem formatUint_data (n : Nat) (hn : 0 < n) :
    (FormatUint n).data = ((Nat.digits 10 n).map digitOf).reverse := by
  unfold FormatUint
  rw [if_neg (by omega)]

theorem decimalValue_formatUint (n : Nat) (hn : 0 < n) :
    decimalValue (FormatUint n).data = n := by
  rw [formatUint_data n hn,
    decimalValue_digits _ (fun d hd => Nat.digits_lt_base (by decide) hd),
    Nat.ofDigits_digits]

theorem isDigit_formatUint (n : Nat) (hn : 0 < n) :
    ∀ ch ∈ (FormatUint n).data, ch.isDigit = true := by
  intro ch hch
  rw [formatUint_data n hn] at hch
  simp only [List.mem_reverse, List.mem_map] at hch
  obtain ⟨d, hd, rfl⟩ := hch
  exact isDigit_digitOf d (Nat.digits_lt_base (by decide) hd)

theorem length_formatUint (n : Nat) (hn : 10000 ≤ n) :
    5 ≤ (FormatUint n).data.length := by
  rw [formatUint_data n (by omega)]
  simp only [List.length_reverse, List.length_map]
  by_contra hlt
  have h4 : (Nat.digits 10 n).length ≤ 4 := by omega
  have h1 : n < 10 ^ (Nat.digits 10 n).length :=
    Nat.lt_base_pow_length_digits (by decide)
  have h2 : 10 ^ (Nat.digits 10 n).length ≤ 10 ^ 4 :=
    Nat.pow_le_pow_right (by decide) h4
  omega

theorem formatTimestamp_split (c : WallClock) (h : c.Civil) :
    (formatTimestamp c).data = (appendInt c.year 4).data ++ clockTail c := by
  obtain ⟨_, hmo, _, hd, hh, hmi, hs⟩ := h
  simp only [formatTimestamp, String.data_append]
  rw [appendInt_data c.month 2 (by omega), appendInt_data c.day 2 (by omega),
    appendInt_data c.hour 2 (by omega), appendInt_data c.minute 2 (by omega),
    appendInt_data c.second 2 (by omega)]
  simp [padDigits_two, clockTail]

theorem isDigit_clockTail (c : WallClock) : ∀ ch ∈ clockTail c, ch.isDigit = true := by
  intro ch hch
  simp only [clockTail, List.mem_cons, List.mem_singleton, List.not_mem_nil,
    or_false] at hch
  rcases hch with h | h | h | h | h | h | h | h | h | h <;>
    (rw [h]; exact isDigit_decimalDigit _ _)

/-- The timestamp of a civil clock reading: the year in decimal, on four
digits at least, followed by two digits each for month, day, hour, minute
and second. -/
theorem formatTimestamp_spec (c : WallClock) (h : c.Civil) :
    (∀ ch ∈ (formatTimestamp c).data, ch.isDigit = true) ∧
    (∃ ys, (formatTimestamp c).data = ys ++ clockTail c ∧
      decimalValue ys = c.year ∧
      (c.year < 10000 →
        ys = [decimalDigit c.year 3, decimalDigit c.year 2,
              decimalDigit c.year 1, decimalDigit c.year 0]) ∧
      (10000 ≤ c.year → 5 ≤ ys.length)) ∧
    (c.year < 10000 → (formatTimestamp c).data.length = 14) ∧
    (10000 ≤ c.year → 14 < (formatTimestamp c).data.length) := by
  have hsplit := formatTimestamp_split c h
  have htail : (clockTail c).length = 10 := rfl
  by_cases hy : c.year < 10000
  · have hyd : (appendInt c.year 4).data =
        [decimalDigit c.year 3, decimalDigit c.year 2,
          decimalDigit c.year 1, decimalDigit c.year 0] := by
      rw [appendInt_data c.year 4 (by omega), padDigits_four]
    refine ⟨?_, ⟨_, hsplit, ?_, fun _ => hyd, fun h5 => by omega⟩, ?_, fun h5 => by omega⟩
    · intro ch hch
      rw [hsplit, List.mem_append] at hch
      rcases hch with hch | hch
      · rw [appendInt_data c.year 4 (by omega)] at hch
        exact isDigit_padDigits _ _ ch hch
      · exact isDigit_clockTail c ch hch
    · rw [appendInt_data c.year 4 (by omega), decimalValue_padDigits]
      exact Nat.mod_eq_of_lt (by omega)
    · intro _
      rw [hsplit, hyd, List.length_append, htail]
      rfl
  · have hyd : (appendInt c.year 4).data = (FormatUint c.year).data := by
      unfold appendInt
      rw [if_neg (by omega)]
    have hlen := length_formatUint c.year (by omega)
    refine ⟨?_, ⟨_, hsplit, ?_, fun h4 => absurd h4 hy, fun _ => ?_⟩,
      fun h4 => absurd h4 hy, fun _ => ?_⟩
    · intro ch hch
      rw [hsplit, List.mem_append] at hch
      rcases hch with hch | hch
      · rw [hyd] at hch
        exact isDigit_formatUint c.year (by omega) ch hch
      · exact isDigit_clockTail c ch hch
    · rw [hyd]
      exact decimalValue_formatUint c.year (by omega)
    · rw [hyd]
      exact hlen
    · rw [hsplit, hyd, List.length_append, htail]
      omega

theorem exportArtifactsLoop_threaded (env : DeployEnv) (i : Nat)
    (artifacts : List Artifact) (present : List String) (log : List WriteEvent) :
    ∃ evs, (exportArtifactsLoop env i artifacts present log).1.1 = log ++ evs ∧
      Threaded env i present evs := by
  induction artifacts generalizing i present log with
  | nil => exact ⟨[], by simp [exportArtifactsLoop], trivial⟩
  | cons a rest ih =>
    unfold exportArtifactsLoop
    cases hs : env.statErr (a.Name ++ ".zip") with
    | some err => exact ⟨[], by simp, trivial⟩
    | none =>
      simp only
      generalize hname :
        exportName (decide (a.Name ++ ".zip" ∈ present)) (env.now i) a.Name = name
      obtain ⟨evs, hevs, hthr⟩ := ih (i + 1)
        (if (!env.zipFails { a with Name := name }) = true then name :: present
          else present)
        (log ++ [⟨i, a, name, present, !env.zipFails { a with Name := name }⟩])
      refine ⟨(⟨i, a, name, present, !env.zipFails { a with Name := name }⟩ :
        WriteEvent) :: evs, ?_, ⟨rfl, rfl, rfl, hthr⟩⟩
      rw [hevs]
      simp

theorem threaded_head (env : DeployEnv) (i : Nat) (present : List String)
    (evs : List WriteEvent) (h : Threaded env i present evs) (ev : WriteEvent)
    (hev : evs[0]? = some ev) :
    ev.before = present ∧ ev.index = i := by
  cases evs with
  | nil => simp at hev
  | cons e rest =>
    simp only [List.getElem?_cons_zero, Option.some.injEq] at hev
    subst hev
    exact ⟨h.2.1, h.1⟩

theorem threaded_index (env : DeployEnv) (i : Nat) (present : List String)
    (evs : List WriteEvent) (h : Threaded env i present evs) (j : Nat)
    (ev : WriteEvent) (hev : evs[j]? = some ev) :
    ev.index = i + j ∧
      ev.ok = (!env.zipFails { ev.artifact with Name := ev.target }) := by
  induction evs generalizing i present j with
  | nil => simp at hev
  | cons e rest ih =>
    cases j with
    | zero =>
      simp only [List.getElem?_cons_zero, Option.some.injEq] at hev
      subst hev
      exact ⟨h.1, h.2.2.1⟩
    | succ j =>
      simp only [List.getElem?_cons_succ] at hev
      have := ih (i + 1) _ h.2.2.2 j hev
      exact ⟨by omega, this.2⟩

theorem threaded_next (env : DeployEnv) (i : Nat) (present : List String)
    (evs : List WriteEvent) (h : Threaded env i present evs) (j : Nat)
    (ev ev' : WriteEvent) (hev : evs[j]? = some ev) (hev' : evs[j + 1]? = some ev') :
    ev'.before = if ev.ok then ev.target :: ev.before else ev.before := by
  induction evs generalizing i present j with
  | nil => simp at hev
  | cons e rest ih =>
    cases j with
    | zero =>
      simp only [List.getElem?_cons_zero, Option.some.injEq] at hev
      simp only [zero_add, List.getElem?_cons_succ] at hev'
      subst hev
      rw [(threaded_head env _ _ rest h.2.2.2 ev' hev').1, h.2.1]
    | succ j =>
      simp only [List.getElem?_cons_succ] at hev hev'
      exact ih (i + 1) _ h.2.2.2 j hev hev'

/-- Counterexample to C3 as stated: with `app-debug.zip` present and the
clock reading 10000-01-01 00:00:00, the export name of `app-debug` is not
`app-debug-T.zip` for any `T` of 14 characters (the timestamp written has
15 digits). -/
theorem exportArtifacts_long_year :
    ¬ (∀ ev ∈ (exportArtifacts lateEnv ["app-debug.zip"] [appDebug]).1.1,
        ∃ T : String, T.data.length = 14 ∧
          ev.target = ev.artifact.Name ++ "-" ++ T ++ ".zip") := by
  intro h
  have hev : (exportArtifacts lateEnv ["app-debug.zip"] [appDebug]).1.1 =
      [⟨0, appDebug, "app-debug-100000101000000.zip", ["app-debug.zip"], true⟩] := by
    simp [exportArtifacts, exportArtifactsLoop, lateEnv, appDebug, exportName,
      TrimSuffix, HasSuffix, formatTimestamp, appendInt, FormatUint, padDigits, digitOf]
    decide
  rw [hev] at h
  obtain ⟨T, hT, htarget⟩ := h _ (List.mem_singleton.mpr rfl)
  have hlen := congrArg (fun s => s.data.length) htarget
  simp only [String.data_append, List.length_append, hT] at hlen
  revert hlen
  decide

/-- C3 (amended): for every artifact with display name `d` processed by
`exportArtifacts`, the export name is `d.zip` when `deployDir/d.zip` does
not exist and `d-T.zip` when it does; the stem before the timestamp is the
display name, unmodified.  `T` renders the clock reading of that moment: the
year in decimal on four digits at least, then month, day, hour, minute and
second on two digits each; it is `YYYYMMDDhhmmss`, 14 decimal digits, when
the year is below 10000, and longer when it is not.  Each write sees the
names left in `deployDir` by the writes before it, and without stat error
every artifact of the batch is processed, in order. -/
theorem exportArtifacts_names (env : DeployEnv) (present : List String)
    (artifacts : List Artifact) :
    (∀ ev ∈ (exportArtifacts env present artifacts).1.1,
      (ev.artifact.Name ++ ".zip" ∉ ev.before →
        ev.target = ev.artifact.Name ++ ".zip") ∧
      (ev.artifact.Name ++ ".zip" ∈ ev.before →
        ev.target = ev.artifact.Name ++ "-" ++
          formatTimestamp (env.now ev.index) ++ ".zip")) ∧
    (∀ c : WallClock, c.Civil →
      (∀ ch ∈ (formatTimestamp c).data, ch.isDigit = true) ∧
      (∃ ys, (formatTimestamp c).data = ys ++ clockTail c ∧
        decimalValue ys = c.year ∧
        (c.year < 10000 →
          ys = [decimalDigit c.year 3, decimalDigit c.year 2,
                decimalDigit c.year 1, decimalDigit c.year 0]) ∧
        (10000 ≤ c.year → 5 ≤ ys.length)) ∧
      (c.year < 10000 → (formatTimestamp c).data.length = 14) ∧
      (10000 ≤ c.year → 14 < (formatTimestamp c).data.length)) ∧
    (∀ j ev, (exportArtifacts env present artifacts).1.1[j]? = some ev →
      ev.index = j ∧
      ev.ok = (!env.zipFails { ev.artifact with Name := ev.target }) ∧
      (j = 0 → ev.before = present) ∧
      (∀ ev', (exportArtifacts env present artifacts).1.1[j + 1]? = some ev' →
        ev'.before = if ev.ok then ev.target :: ev.before else ev.before)) ∧
    ((∀ a ∈ artifacts, env.statErr (a.Name ++ ".zip") = none) →
      (exportArtifacts env present artifacts).1.1.map WriteEvent.artifact = artifacts ∧
        (exportArtifacts env present artifacts).2 = .ok ()) := by
  have hloop := exportArtifactsLoop_writes env present 0 artifacts present []
    (fun _ hn => hn) (by intro ev hev; simp at hev)
  obtain ⟨evs, hevs, hthr⟩ := exportArtifactsLoop_threaded env 0 artifacts present []
  simp only [List.nil_append] at hevs
  refine ⟨?_, fun c hc => formatTimestamp_spec c hc, ?_, ?_⟩
  · intro ev hev
    obtain ⟨htarget, _⟩ := hloop.1 ev hev
    refine ⟨fun hex => ?_, fun hex => ?_⟩
    · simpa only [hex, decide_False, exportName_fresh] using htarget
    · simpa only [hex, decide_True, exportName_collision] using htarget
  · intro j ev hev
    unfold exportArtifacts at hev ⊢
    rw [hevs] at hev ⊢
    have hidx := threaded_index env 0 present evs hthr j ev hev
    refine ⟨by omega, hidx.2, ?_, ?_⟩
    · intro hj
      subst hj
      exact (threaded_head env 0 present evs hthr ev hev).1
    · intro ev' hev'
      exact threaded_next env 0 present evs hthr j ev ev' hev hev'
  · intro hs
    have := exportArtifactsLoop_complete env 0 artifacts present [] hs
    simpa [exportArtifacts] using this

/-- Witness for C3 (amended): the collision of the spec's scenario 4 gives
`app-debug-20240115120000.zip`, and the clock reading 2024-01-15 12:00:00
is rendered on 14 characters. -/
theorem exportArtifacts_names_witness :
    appDebugWrite ["app-debug.zip"] ∈
        (exportArtifacts quietEnv ["app-debug.zip"] [appDebug]).1.1 ∧
      (appDebugWrite ["app-debug.zip"]).target =
        "app-debug" ++ "-" ++ "20240115120000" ++ ".zip" ∧
      (formatTimestamp ⟨2024, 1, 15, 12, 0, 0⟩).data.length = 14 ∧
      (exportArtifacts quietEnv ["app-debug.zip"] [appDebug]).2 = .ok () :=
  ⟨List.mem_singleton.mpr rfl,
    ((exportArtifacts_names quietEnv ["app-debug.zip"] [appDebug]).1
      (appDebugWrite ["app-debug.zip"]) (List.mem_singleton.mpr rfl)).2 (by decide),
    ((exportArtifacts_names quietEnv ["app-debug.zip"] [appDebug]).2.1
      ⟨2024, 1, 15, 12, 0, 0⟩ (by decide)).2.2.1 (by decide),
    ((exportArtifacts_names quietEnv ["app-debug.zip"] [appDebug]).2.2.2
      (by intro a _; rfl)).2⟩

/-! ## `tryExportTestAddonArtifact` -/

theorem wrapInt64_of_range (x : Int) (h1 : -(2 ^ 63) ≤ x) (h2 : x < 2 ^ 63) :
    wrapInt64 x = x := by
  unfold wrapInt64
  norm_num at h1 h2 ⊢
  omega

theorem digitOf_inj (d e : Nat) (hd : d < 10) (he : e < 10)
    (h : digitOf d = digitOf e) : d = e := by
  have hv : ∀ n, n < 10 → (digitOf n).toNat = 48 + n := by
    intro n hn
    interval_cases n <;> rfl
  have := congrArg Char.toNat h
  rw [hv d hd, hv e he] at this
  omega

theorem map_digitOf_inj (l1 l2 : List Nat) (h1 : ∀ d ∈ l1, d < 10)
    (h2 : ∀ d ∈ l2, d < 10) (h : l1.map digitOf = l2.map digitOf) : l1 = l2 := by
  induction l1 generalizing l2 with
  | nil =>
    cases l2 with
    | nil => rfl
    | cons b l2 => simp at h
  | cons a l1 ih =>
    cases l2 with
    | nil => simp at h
    | cons b l2 =>
      simp only [List.map_cons, List.cons.injEq] at h
      have hab := digitOf_inj a b (h1 a (List.mem_cons_self _ _))
        (h2 b (List.mem_cons_self _ _)) h.1
      rw [hab, ih l2 (fun d hd => h1 d (List.mem_cons_of_mem _ hd))
        (fun d hd => h2 d (List.mem_cons_of_mem _ hd)) h.2]

theorem formatUint_inj (a b : Nat) (ha : 0 < a) (hb : 0 < b)
    (h : FormatUint a = FormatUint b) : a = b := by
  unfold FormatUint at h
  rw [if_neg (by omega), if_neg (by omega)] at h
  have h1 : ((Nat.digits 10 a).map digitOf).reverse =
      ((Nat.digits 10 b).map digitOf).reverse := by
    injection h
  have h2 := List.reverse_injective h1
  have h3 := map_digitOf_inj _ _
    (fun d hd => Nat.digits_lt_base (by decide) hd)
    (fun d hd => Nat.digits_lt_base (by decide) hd) h2
  exact Nat.digits_inj_iff.mp h3

theorem itoa_of_pos (k : Nat) : Itoa (k : Int) = FormatUint k := by
  unfold Itoa
  rw [if_neg (by omega)]
  simp

section Addon

variable (getExportDir : String → String)
variable (exportArtifact : String → String → String → Bool)

theorem tryExport_step (artifactPth outputDir : String) (k : Nat) (hk : k < 2 ^ 63) :
    tryExportTestAddonArtifact getExportDir exportArtifact artifactPth outputDir
        ((k : Int) - 1) =
      (⟨artifactPth, outputDir, bucketName (getExportDir artifactPth) k,
          exportArtifact artifactPth outputDir (bucketName (getExportDir artifactPth) k)⟩,
        if getExportDir artifactPth = OtherDirName then (k : Int) else (k : Int) - 1) := by
  have hw : wrapInt64 ((k : Int) - 1 + 1) = (k : Int) := by
    rw [wrapInt64_of_range] <;> norm_num at hk ⊢ <;> omega
  unfold tryExportTestAddonArtifact bucketName
  by_cases ho : getExportDir artifactPth = OtherDirName
  · simp only [ho, if_true, hw]
    by_cases hk0 : k = 0
    · subst hk0
      simp
    · have hpos : (k : Int) > 0 := by omega
      simp only [hpos, if_true, hk0, if_false, itoa_of_pos]
  · simp only [ho, if_false]

theorem batch_getElem (outputDir : String) (paths : List String) (k : Nat)
    (h : k + paths.length < 2 ^ 63) (i : Nat) (p : String)
    (hp : paths[i]? = some p) :
    (exportTestAddonBatch getExportDir exportArtifact outputDir paths
        ((k : Int) - 1)).1[i]? =
      some ⟨p, outputDir,
        bucketName (getExportDir p) (k + othersBefore getExportDir paths i),
        exportArtifact p outputDir
          (bucketName (getExportDir p) (k + othersBefore getExportDir paths i))⟩ := by
  induction paths generalizing k i with
  | nil => simp at hp
  | cons q rest ih =>
    simp only [List.length_cons] at h
    unfold exportTestAddonBatch
    simp only
    rw [tryExport_step getExportDir exportArtifact q outputDir k (by omega)]
    cases i with
    | zero =>
      simp only [List.getElem?_cons_zero, Option.some.injEq] at hp
      subst hp
      simp [othersBefore]
    | succ j =>
      simp only [List.getElem?_cons_succ] at hp ⊢
      by_cases ho : getExportDir q = OtherDirName
      · simp only [ho, if_true]
        have := ih (k + 1) (by omega) j hp
        simp only [Nat.cast_add, Nat.cast_one, add_sub_cancel_right] at this
        rw [this]
        simp [othersBefore, ho, List.countP_cons]
        constructor <;> ring_nf
      · simp only [ho, if_false]
        rw [ih k (by omega) j hp]
        simp [othersBefore, ho, List.countP_cons]

theorem batch_length (outputDir : String) (paths : List String) (idx : Int) :
    (exportTestAddonBatch getExportDir exportArtifact outputDir paths idx).1.length =
      paths.length := by
  induction paths generalizing idx with
  | nil => rfl
  | cons q rest ih => simp [exportTestAddonBatch, ih]

theorem tryExport_not_other (artifactPth outputDir : String) (idx : Int)
    (h : getExportDir artifactPth ≠ OtherDirName) :
    (tryExportTestAddonArtifact getExportDir exportArtifact artifactPth outputDir idx).2
        = idx ∧
      (tryExportTestAddonArtifact getExportDir exportArtifact artifactPth outputDir idx).1.dir
        = getExportDir artifactPth := by
  simp [tryExportTestAddonArtifact, h]

theorem othersBefore_of_all (paths : List String)
    (h : ∀ p ∈ paths, getExportDir p = OtherDirName) (i : Nat) (hi : i ≤ paths.length) :
    othersBefore getExportDir paths i = i := by
  unfold othersBefore
  rw [List.countP_eq_length.mpr]
  · simp [hi]
  · intro p hp
    simpa using h p (List.mem_of_mem_take hp)

end Addon

theorem string_append_left_cancel (s t u : String) (h : s ++ t = s ++ u) : t = u := by
  have := congrArg String.data h
  simp only [String.data_append] at this
  exact String.ext (List.append_cancel_left this)

theorem bucketName_other_inj (a b : Nat)
    (h : bucketName OtherDirName a = bucketName OtherDirName b) : a = b := by
  unfold bucketName at h
  simp only [if_true] at h
  have hlen : ∀ k, (OtherDirName ++ "-" ++ FormatUint k) ≠ OtherDirName := by
    intro k hk
    have := congrArg (fun s => s.data.length) hk
    simp only [String.data_append, List.length_append] at this
    have h2 : ("-" : String).data.length = 1 := rfl
    rw [h2] at this
    omega
  by_cases ha : a = 0
  · by_cases hb : b = 0
    · rw [ha, hb]
    · simp only [ha, hb, if_true, if_false] at h
      exact absurd h.symm (hlen b)
  · by_cases hb : b = 0
    · simp only [ha, hb, if_true, if_false] at h
      exact absurd h (hlen a)
    · simp only [ha, hb, if_false] at h
      rw [String.append_assoc, String.append_assoc] at h
      have h1 := string_append_left_cancel _ _ _ h
      have h2 := string_append_left_cancel _ _ _ h1
      exact formatUint_inj a b (by omega) (by omega) h2

/-- C9: over a batch processed in order with `lastOtherDirIdx` threaded from
`-1`, whatever the outcome of the copies, an artifact whose `getExportDir`
is not `"other"` gets exactly that bucket and leaves the index unchanged,
and the `k`-th artifact (from 0) whose `getExportDir` is `"other"` gets
`other` for `k = 0` and `other-k` (decimal `k`) for `k > 0`; a batch of `N`
artifacts all mapping to `"other"` gets `other, other-1, ..., other-(N-1)`
in order, pairwise distinct. -/
theorem testAddon_buckets (getExportDir : String → String)
    (exportArtifact : String → String → String → Bool) (outputDir : String)
    (paths : List String) (hlen : paths.length < 2 ^ 63) :
    (exportTestAddonBatch getExportDir exportArtifact outputDir paths (-1)).1.length
        = paths.length ∧
    (∀ i p, paths[i]? = some p →
      ∃ ev, (exportTestAddonBatch getExportDir exportArtifact outputDir paths (-1)).1[i]?
          = some ev ∧
        ev.artifactPth = p ∧ ev.outputDir = outputDir ∧
        (getExportDir p ≠ OtherDirName → ev.dir = getExportDir p) ∧
        (getExportDir p = OtherDirName → othersBefore getExportDir paths i = 0 →
          ev.dir = "other") ∧
        (getExportDir p = OtherDirName → 0 < othersBefore getExportDir paths i →
          ev.dir = "other-" ++ FormatUint (othersBefore getExportDir paths i))) ∧
    (∀ p idx, getExportDir p ≠ OtherDirName →
      (tryExportTestAddonArtifact getExportDir exportArtifact p outputDir idx).2 = idx ∧
      (tryExportTestAddonArtifact getExportDir exportArtifact p outputDir idx).1.dir
        = getExportDir p) ∧
    ((∀ p ∈ paths, getExportDir p = OtherDirName) →
      (exportTestAddonBatch getExportDir exportArtifact outputDir paths (-1)).1.map
          AddonEvent.dir
        = (List.range paths.length).map
            (fun k => if k = 0 then "other" else "other-" ++ FormatUint k) ∧
      ((exportTestAddonBatch getExportDir exportArtifact outputDir paths (-1)).1.map
          AddonEvent.dir).Nodup) := by
  have hget := fun i p hp =>
    batch_getElem getExportDir exportArtifact outputDir paths 0 (by simpa using hlen) i p hp
  simp only [Nat.cast_zero, zero_sub, zero_add] at hget
  have hbucket : ∀ k, bucketName OtherDirName k =
      (if k = 0 then "other" else "other-" ++ FormatUint k) := by
    intro k
    unfold bucketName
    simp only [if_true]
    split
    · rfl
    · rw [String.append_assoc]
      rfl
  refine ⟨batch_length getExportDir exportArtifact outputDir paths (-1), ?_,
    fun p idx h => tryExport_not_other getExportDir exportArtifact p outputDir idx h, ?_⟩
  · intro i p hp
    refine ⟨_, hget i p hp, rfl, rfl, ?_, ?_, ?_⟩
    · intro ho
      simp [bucketName, ho]
    · intro ho hk
      simp only [ho, hbucket, hk, if_true]
    · intro ho hk
      have : ¬ othersBefore getExportDir paths i = 0 := by omega
      simp only [ho, hbucket, this, if_false]
  · intro hall
    have hmap : (exportTestAddonBatch getExportDir exportArtifact outputDir paths
          (-1)).1.map AddonEvent.dir
        = (List.range paths.length).map
            (fun k => if k = 0 then "other" else "other-" ++ FormatUint k) := by
      apply List.ext_getElem?
      intro i
      by_cases hi : i < paths.length
      · have hp : paths[i]? = some paths[i] := List.getElem?_eq_getElem hi
        rw [List.getElem?_map, hget i _ hp]
        rw [List.getElem?_map, List.getElem?_range hi]
        simp only [Option.map_some']
        rw [hall _ (List.getElem_mem hi),
          othersBefore_of_all getExportDir paths hall i (by omega), hbucket]
      · have h1 : (List.map AddonEvent.dir (exportTestAddonBatch getExportDir
            exportArtifact outputDir paths (-1)).1).length ≤ i := by
          rw [List.length_map, batch_length]
          omega
        have h2 : (List.map (fun k => if k = 0 then "other" else "other-" ++ FormatUint k)
            (List.range paths.length)).length ≤ i := by
          rw [List.length_map, List.length_range]
          omega
        rw [List.getElem?_eq_none h1, List.getElem?_eq_none h2]
    refine ⟨hmap, ?_⟩
    rw [hmap]
    apply List.Nodup.map_on _ (List.nodup_range _)
    intro a _ b _ hab
    rw [← hbucket a, ← hbucket b] at hab
    exact bucketName_other_inj a b hab

/-- The spec's scenario 6: categories `unit, other, other, ui` give the
buckets `unit, other, other-1, ui`. -/
theorem testAddon_scenario :
    (exportTestAddonBatch scenarioExportDir (fun _ _ _ => true) "/results"
        scenarioPaths (-1)).1.map AddonEvent.dir = ["unit", "other", "other-1", "ui"] := by
  simp [exportTestAddonBatch, tryExportTestAddonArtifact, scenarioPaths, scenarioExportDir,
    OtherDirName, wrapInt64, Itoa, FormatUint, digitOf]

/-- Witness for C9 on the four files of the spec's scenario 6. -/
theorem testAddon_buckets_witness :
    scenarioPaths.length < 2 ^ 63 ∧
    (exportTestAddonBatch scenarioExportDir (fun _ _ _ => true) "/results"
        scenarioPaths (-1)).1.length = scenarioPaths.length :=
  ⟨by decide, (testAddon_buckets scenarioExportDir (fun _ _ _ => true) "/results"
    scenarioPaths (by decide)).1⟩

/-! ## `main` -/

theorem exportArtifactsLoop_ok (env : DeployEnv)
    (i : Nat) (artifacts : List Artifact) (present : List String)
    (log : List WriteEvent)
    (h : (exportArtifactsLoop env i artifacts present log).2 = .ok ()) :
    (exportArtifactsLoop env i artifacts present log).1.1.map WriteEvent.artifact =
      log.map WriteEvent.artifact ++ artifacts := by
  induction artifacts generalizing i present log with
  | nil => simp [exportArtifactsLoop]
  | cons a rest ih =>
    unfold exportArtifactsLoop at h ⊢
    cases hs : env.statErr (a.Name ++ ".zip") with
    | some err => simp [hs] at h
    | none =>
      simp only [hs] at h ⊢
      rw [ih _ _ _ h]
      simp

theorem batch_paths (getExportDir : String → String)
    (exportArtifact : String → String → String → Bool) (outputDir : String)
    (paths : List String) (idx : Int) :
    (exportTestAddonBatch getExportDir exportArtifact outputDir paths idx).1.map
      AddonEvent.artifactPth = paths := by
  induction paths generalizing idx with
  | nil => rfl
  | cons q rest ih => simp [exportTestAddonBatch, tryExportTestAddonArtifact, ih]

theorem batch_outputDir (getExportDir : String → String)
    (exportArtifact : String → String → String → Bool) (outputDir : String)
    (paths : List String) (idx : Int) :
    ∀ ev ∈ (exportTestAddonBatch getExportDir exportArtifact outputDir paths idx).1,
      ev.outputDir = outputDir := by
  induction paths generalizing idx with
  | nil => intro ev hev; simp [exportTestAddonBatch] at hev
  | cons q rest ih =>
    intro ev hev
    simp only [exportTestAddonBatch, List.mem_cons] at hev
    rcases hev with hev | hev
    · rw [hev]
      rfl
    · exact ih _ ev hev

theorem cache_not_mem_testAddonPhase (w : World) (config : Configs)
    (gradleProject : Project) (started : Time) (loc lvl : String) :
    Event.cache loc lvl ∉ testAddonPhase w config gradleProject started := by
  unfold testAddonPhase
  simp only
  split <;> simp

theorem runPipeline_cache (w : World) (config : Configs) (gradleProject : Project)
    (filteredVariants : Variants) (args : List String) (loc lvl : String)
    (h : Event.cache loc lvl ∈
      (runPipeline w config gradleProject filteredVariants args).1) :
    (runPipeline w config gradleProject filteredVariants args).2 = 0 ∧
      Event.build filteredVariants args ∈
        (runPipeline w config gradleProject filteredVariants args).1 ∧
      w.runBuild filteredVariants args = none := by
  have hno := cache_not_mem_testAddonPhase w config gradleProject w.now loc lvl
  unfold runPipeline at h ⊢
  simp only at h ⊢
  split at h
  · simp at h
  · split at h
    · simp at h
    · split at h
      · simp at h
      · split at h
        · simp at h
        · cases hb : w.runBuild filteredVariants args with
          | some err =>
            simp only [hb] at h
            split at h <;> simp [hno] at h
          | none =>
            simp only [List.mem_append, List.mem_singleton, true_and]
            refine ⟨Or.inl ?_, trivial⟩
            split <;> simp

/-- C10: the cache collector is invoked only in a run whose build command
returned no error (and that run exits with status 0).  In a run where
configuration, project opening and variant filtering succeed, the build
command returns an error and neither discovery nor the deploy-dir pre-check
fails: after the build come the HTML discovery and the export of every
report, the XML discovery and the export of every result and, when
`TestResultDir` is set, the test-addon phase with one export per XML file
found; the cache collector is not invoked and the exit status is 1. -/
theorem main_build_failure (w : World) :
    (∀ loc lvl, Event.cache loc lvl ∈ (main w).1 →
      (main w).2 = 0 ∧
        ∃ variants args, Event.build variants args ∈ (main w).1 ∧
          w.runBuild variants args = none) ∧
    (∀ config gradleProject args variants filteredVariants err reports results,
      w.parseConfig = .ok config →
      w.newProject config.ProjectLocation = .ok gradleProject →
      w.splitArgs config.Arguments = .ok args →
      w.getVariants args = .ok variants →
      filterVariants w.lowerRune config.Module config.Variant variants
        = .ok filteredVariants →
      w.runBuild filteredVariants args = some err →
      (getArtifacts gradleProject w.now config.HTMLResultDirPattern true true).2
        = .ok reports →
      (exportArtifacts w.htmlEnv w.deployPresent reports).2 = .ok () →
      (getArtifacts gradleProject w.now config.XMLResultDirPattern true true).2
        = .ok results →
      (exportArtifacts w.xmlEnv
        (exportArtifacts w.htmlEnv w.deployPresent reports).1.2 results).2 = .ok () →
      (main w).2 = 1 ∧
      (∀ loc lvl, Event.cache loc lvl ∉ (main w).1) ∧
      (main w).1 = Event.build filteredVariants args ::
        ((getArtifacts gradleProject w.now config.HTMLResultDirPattern true true).1.map
            (Event.find .html) ++
          (exportArtifacts w.htmlEnv w.deployPresent reports).1.1.map (Event.zip .html) ++
          (getArtifacts gradleProject w.now config.XMLResultDirPattern true true).1.map
            (Event.find .xml) ++
          (exportArtifacts w.xmlEnv
            (exportArtifacts w.htmlEnv w.deployPresent reports).1.2 results).1.1.map
              (Event.zip .xml) ++
          (if config.TestResultDir ≠ "" then testAddonPhase w config gradleProject w.now
            else [])) ∧
      (exportArtifacts w.htmlEnv w.deployPresent reports).1.1.map WriteEvent.artifact
        = reports ∧
      (exportArtifacts w.xmlEnv
        (exportArtifacts w.htmlEnv w.deployPresent reports).1.2 results).1.1.map
          WriteEvent.artifact = results ∧
      (config.TestResultDir ≠ "" →
        ∀ resultXMLs,
          (getArtifacts gradleProject w.now
            (xmlResultFilePattern config.XMLResultDirPattern) false false).2
              = .ok resultXMLs →
          ∀ a ∈ resultXMLs, ∃ ev, Event.addon ev ∈ (main w).1 ∧
            ev.artifactPth = a.Path ∧ ev.outputDir = config.TestResultDir)) := by
  constructor
  · intro loc lvl h
    unfold main at h ⊢
    split at h
    · simp at h
    · split at h
      · simp at h
      · split at h
        · simp at h
        · split at h
          · simp at h
          · split at h
            · simp at h
            · next filtered _ =>
              obtain ⟨h1, h2, h3⟩ := runPipeline_cache w _ _ _ _ loc lvl h
              exact ⟨h1, _, _, h2, h3⟩
  · intro config gradleProject args variants filteredVariants err reports results
      hc hp ha hv hf hb hr he hx hxe
    have htrace : main w = (Event.build filteredVariants args ::
        ((getArtifacts gradleProject w.now config.HTMLResultDirPattern true true).1.map
            (Event.find .html) ++
          (exportArtifacts w.htmlEnv w.deployPresent reports).1.1.map (Event.zip .html) ++
          (getArtifacts gradleProject w.now config.XMLResultDirPattern true true).1.map
            (Event.find .xml) ++
          (exportArtifacts w.xmlEnv
            (exportArtifacts w.htmlEnv w.deployPresent reports).1.2 results).1.1.map
              (Event.zip .xml) ++
          (if config.TestResultDir ≠ "" then testAddonPhase w config gradleProject w.now
            else [])), 1) := by
      simp only [main, hc, hp, ha, hv, hf, runPipeline, hb, hr, he, hx, hxe]
      split <;> simp
    have hnc : ∀ loc lvl, Event.cache loc lvl ∉ (main w).1 := by
      intro loc lvl hmem
      have hno := cache_not_mem_testAddonPhase w config gradleProject w.now loc lvl
      rw [htrace] at hmem
      simp only [List.mem_cons, List.mem_append, List.mem_map, reduceCtorEq, and_false,
        exists_false, or_false, false_or] at hmem
      split at hmem
      · exact hno hmem
      · simp at hmem
    refine ⟨by rw [htrace], hnc, by rw [htrace], ?_, ?_, ?_⟩
    · have := exportArtifactsLoop_ok w.htmlEnv 0 reports w.deployPresent [] he
      simpa [exportArtifacts] using this
    · have := exportArtifactsLoop_ok w.xmlEnv 0 results _ [] hxe
      simpa [exportArtifacts] using this
    · intro ht resultXMLs hxml a hmem
      have hpaths := batch_paths w.getExportDir w.exportArtifact config.TestResultDir
        (resultXMLs.map Artifact.Path) (-1)
      have hin : a.Path ∈ (exportTestAddonBatch w.getExportDir w.exportArtifact
          config.TestResultDir (resultXMLs.map Artifact.Path) (-1)).1.map
            AddonEvent.artifactPth := by
        rw [hpaths]
        exact List.mem_map.mpr ⟨a, hmem, rfl⟩
      obtain ⟨ev, hev, hevp⟩ := List.mem_map.mp hin
      refine ⟨ev, ?_, hevp, ?_⟩
      · rw [htrace]
        simp only [ht, ne_eq, not_false_eq_true, if_true, testAddonPhase, hxml]
        simp only [List.mem_cons, List.mem_append, List.mem_map]
        right; right; right
        exact ⟨ev, hev, rfl⟩
      · exact batch_outputDir w.getExportDir w.exportArtifact config.TestResultDir
          (resultXMLs.map Artifact.Path) (-1) ev hev

/-- Witness for C10: the run of `failedBuildWorld` exits with status 1
without invoking the cache collector. -/
theorem main_build_failure_witness :
    (main failedBuildWorld).2 = 1 ∧
      ∀ loc lvl, Event.cache loc lvl ∉ (main failedBuildWorld).1 :=
  have h := (main_build_failure failedBuildWorld).2
    { ProjectLocation := "/p"
      HTMLResultDirPattern := "*build/reports/kover/html"
      XMLResultDirPattern := "*build/reports/kover/xml"
      Variant := "Debug"
      Module := ""
      Arguments := ""
      CacheLevel := "only_deps"
      IsDebug := false
      DeployDir := "/deploy"
      TestResultDir := "/results" }
    staleProject [] [("app", ["debug", "release"])] [("app", ["debug"])]
    "exit status 1"
    [⟨"/p/app/build/reports/kover/html", "app-html"⟩,
      ⟨"/p/old/build/reports/kover/html", "old-html"⟩]
    [⟨"/p/app/build/reports/kover/html", "app-html"⟩,
      ⟨"/p/old/build/reports/kover/html", "old-html"⟩]
    rfl rfl rfl rfl (by rfl) rfl (by rfl) (by rfl) (by rfl) (by rfl)
  ⟨h.1, h.2.1⟩

end Kover
